import Mathlib

/-!
Verification of the ereader-sync repository's behaviour against its
natural-language specification.

The Python sources under `bin/` are shallowly embedded as executable Lean
definitions: pure string-processing functions become Lean functions over
`String` / `List Char`; functions whose interesting behaviour is control
flow around I/O (HTTP uploads, directory polling) are embedded with the
I/O outcomes passed in explicitly (an oracle argument), which keeps the
repository's own decision logic intact.  Python `dict`s are embedded as
association lists with insertion-order semantics (`dictInsert` replaces
in place, appends fresh keys at the end), matching CPython.

Python builtin behaviours the code relies on (`str.strip`, `str.isdigit`
restricted to ASCII, `int(...)`, `float(...)` acceptance, `str.split`
with a separator and maxsplit, f-string rendering of ints and bools) are
modelled by the `py*` definitions below.
-/

set_option autoImplicit false

/-- Python whitespace characters, as stripped by `str.strip()`. -/
def isPyWs (c : Char) : Bool :=
  c = ' ' || c = '\t' || c = '\n' || c = '\r' || c = '\x0b' || c = '\x0c'

/-- ASCII decimal digit test (model of the digits accepted by
`str.isdigit` on the ASCII strings this repository handles). -/
def isAsciiDigit (c : Char) : Bool :=
  '0' ≤ c && c ≤ '9'

/-- Python `str.strip()` on a character list: drop leading and trailing
whitespace. -/
def pyStripL (l : List Char) : List Char :=
  ((l.dropWhile isPyWs).reverse.dropWhile isPyWs).reverse

/-- Python `str.strip()`. -/
def pyStrip (s : String) : String :=
  ⟨pyStripL s.data⟩

/-- Python `str.isdigit()`: nonempty and all (ASCII) digits. -/
def pyIsDigit (s : String) : Bool :=
  !s.data.isEmpty && s.data.all isAsciiDigit

/-- ASCII lower-casing of one character, as `str.lower()` does on the
ASCII data handled here. -/
def asciiLower (c : Char) : Char :=
  if 'A' ≤ c && c ≤ 'Z' then Char.ofNat (c.toNat + 32) else c

/-- Python `str.lower()` (ASCII fragment). -/
def pyLower (s : String) : String :=
  ⟨s.data.map asciiLower⟩

/-- The ASCII character of a decimal digit. -/
def digitChar (d : Nat) : Char :=
  match d with
  | 0 => '0' | 1 => '1' | 2 => '2' | 3 => '3' | 4 => '4'
  | 5 => '5' | 6 => '6' | 7 => '7' | 8 => '8' | _ => '9'

/-- Decimal digit list of a natural number (most significant first).
The first argument is structural fuel; any fuel above the number itself
is enough. -/
def natToDigits : Nat → Nat → List Char
  | 0, _ => []
  | fuel + 1, n =>
    if n < 10 then [digitChar n]
    else natToDigits fuel (n / 10) ++ [digitChar (n % 10)]

/-- Decimal rendering of a natural number, as Python's `str` /
f-strings produce it. -/
def natRepr (n : Nat) : String :=
  ⟨natToDigits (n + 1) n⟩

/-- Decimal rendering of a Python int (`str(i)`), including the sign. -/
def intRepr (i : Int) : String :=
  if i < 0 then ⟨'-' :: (natToDigits (i.natAbs + 1) i.natAbs)⟩ else natRepr i.toNat

/-- Accumulating decimal parser over digit characters (the core of
Python `int(...)` on a digit string). -/
def digitsToNat : List Char → Nat → Nat
  | [], acc => acc
  | c :: cs, acc => digitsToNat cs (acc * 10 + (c.toNat - 48))

theorem digitChar_isDigit (d : Nat) : isAsciiDigit (digitChar d) = true := by
  unfold digitChar
  split <;> decide

theorem digitChar_toNat : ∀ d < 10, (digitChar d).toNat = 48 + d := by
  decide

theorem digitsToNat_append (acc : Nat) (l₁ l₂ : List Char) :
    digitsToNat (l₁ ++ l₂) acc = digitsToNat l₂ (digitsToNat l₁ acc) := by
  induction l₁ generalizing acc with
  | nil => rfl
  | cons c cs ih =>
    rw [List.cons_append]
    simp only [digitsToNat]
    exact ih _

theorem natToDigits_all_digits (fuel n : Nat) :
    ∀ c ∈ natToDigits fuel n, isAsciiDigit c = true := by
  induction fuel generalizing n with
  | zero => intro c hc; simp [natToDigits] at hc
  | succ fuel ih =>
    intro c hc
    simp only [natToDigits] at hc
    split at hc
    · simp at hc; subst hc; exact digitChar_isDigit n
    · rcases List.mem_append.1 hc with h | h
      · exact ih _ _ h
      · simp at h; subst h; exact digitChar_isDigit (n % 10)

theorem natToDigits_ne_nil (fuel n : Nat) (h : n < fuel) :
    natToDigits fuel n ≠ [] := by
  cases fuel with
  | zero => omega
  | succ fuel =>
    simp only [natToDigits]
    split
    · simp
    · simp

theorem digitsToNat_natToDigits (fuel : Nat) :
    ∀ n acc, n < fuel →
      digitsToNat (natToDigits fuel n) acc =
        acc * 10 ^ (natToDigits fuel n).length + n := by
  induction fuel with
  | zero => intro n acc h; omega
  | succ fuel ih =>
    intro n acc h
    simp only [natToDigits]
    split
    · rename_i h10
      simp [digitsToNat, digitChar_toNat n h10]
    · rename_i h10
      push_neg at h10
      have hdiv : n / 10 < fuel := by
        have h1 : n / 10 < n := Nat.div_lt_self (by omega) (by omega)
        omega
      rw [digitsToNat_append, ih (n / 10) acc hdiv]
      have hm : n % 10 < 10 := Nat.mod_lt n (by omega)
      simp only [digitsToNat, digitChar_toNat (n % 10) hm, List.length_append,
        List.length_cons, List.length_nil, Nat.add_sub_cancel_left, Nat.zero_add]
      rw [pow_succ]
      generalize (10 : ℕ) ^ (natToDigits fuel (n / 10)).length = P
      have hmod : n / 10 * 10 + n % 10 = n := by omega
      have hring : (acc * P + n / 10) * 10 + n % 10
          = acc * (P * 10) + (n / 10 * 10 + n % 10) := by ring
      rw [hring, hmod]

/-- Parsing the decimal rendering of a natural number gives it back. -/
theorem digitsToNat_natRepr (n : Nat) : digitsToNat (natRepr n).data 0 = n := by
  have := digitsToNat_natToDigits (n + 1) n 0 (Nat.lt_succ_self n)
  simpa [natRepr] using this

theorem natRepr_all_digits (n : Nat) : ∀ c ∈ (natRepr n).data, isAsciiDigit c = true :=
  natToDigits_all_digits (n + 1) n

theorem natRepr_ne_nil (n : Nat) : (natRepr n).data ≠ [] :=
  natToDigits_ne_nil (n + 1) n (Nat.lt_succ_self n)

/-- A digit run in a Python numeric literal: digits with single
underscores allowed between digits (`digit (("_")? digit)*`).  This is
the `digitpart` of CPython's float grammar. -/
def digitGroupRest : List Char → Bool
  | [] => true
  | [c] => !(c = '_') && isAsciiDigit c
  | c :: c₂ :: cs₂ =>
    if c = '_' then isAsciiDigit c₂ && digitGroupRest (c₂ :: cs₂)
    else isAsciiDigit c && digitGroupRest (c₂ :: cs₂)

/-- Nonempty digit run with optional internal underscores. -/
def isDigitGroup (l : List Char) : Bool :=
  match l with
  | [] => false
  | c :: cs => isAsciiDigit c && digitGroupRest cs

/-- Split a character list at the first occurrence of `sep`; `none`
when `sep` does not occur. -/
def splitAtChar (sep : Char) : List Char → Option (List Char × List Char)
  | [] => none
  | c :: cs =>
    if c = sep then some ([], cs)
    else (splitAtChar sep cs).map (fun p => (c :: p.1, p.2))

/-- Split at the first exponent marker `e` or `E`. -/
def splitAtExp : List Char → Option (List Char × List Char)
  | [] => none
  | c :: cs =>
    if c = 'e' || c = 'E' then some ([], cs)
    else (splitAtExp cs).map (fun p => (c :: p.1, p.2))

/-- Drop one optional leading sign. -/
def dropSign (l : List Char) : List Char :=
  match l with
  | c :: cs => if c = '+' || c = '-' then cs else l
  | [] => l

/-- The mantissa of a float literal: `digitpart`, `digitpart "."
digitpart?` or `"." digitpart`. -/
def isMantissa (l : List Char) : Bool :=
  match splitAtChar '.' l with
  | none => isDigitGroup l
  | some (ip, fp) =>
    if ip.isEmpty then isDigitGroup fp
    else isDigitGroup ip && (fp.isEmpty || isDigitGroup fp)

/-- Case-insensitive `inf` / `infinity` / `nan`. -/
def isInfNan (l : List Char) : Bool :=
  let s := l.map asciiLower
  s = "inf".data || s = "infinity".data || s = "nan".data

/-- Acceptance of Python's builtin `float(...)` on a string: optional
surrounding whitespace and sign, then `inf`/`infinity`/`nan` or a
mantissa with an optional exponent. -/
def pyFloatAccepts (s : String) : Bool :=
  let l := dropSign (pyStripL s.data)
  if isInfNan l then true
  else
    match splitAtExp l with
    | none => isMantissa l
    | some (m, e) => isMantissa m && isDigitGroup (dropSign e)

/-- Python's builtin `int(...)` on a string: optional surrounding
whitespace and sign, then a digit run (underscore separators allowed);
`none` models the `ValueError`. -/
def pyIntOfString (s : String) : Option Int :=
  let l := pyStripL s.data
  let neg : Bool := l.head? = some '-'
  let l' : List Char :=
    if l.head? = some '+' || l.head? = some '-' then l.tail else l
  if isDigitGroup l' then
    let digits := l'.filter (fun c => c ≠ '_')
    some (if neg then -(digitsToNat digits 0 : Int) else (digitsToNat digits 0 : Int))
  else none

/-- A value stored in a parsed config dictionary.  Floats never flow
into any computation in this repository, so a float value is
represented by the accepted literal text rather than by IEEE
arithmetic. -/
inductive CValue where
  | vInt : Int → CValue
  | vBool : Bool → CValue
  | vFloat : String → CValue
  | vStr : String → CValue
deriving DecidableEq

/-- Rendering of a config value by a Python f-string (`str(value)`).
For `vFloat` the stored literal text stands in for `repr(float)`;
no claim evaluates it. -/
def pyStr : CValue → String
  | .vInt i => intRepr i
  | .vBool b => if b then "True" else "False"
  | .vFloat s => s
  | .vStr s => s

/-- The value-coercion cascade of `read_config_file`
(bin/config_reader.py lines 35-45): int if all digits, then bool on
`true`/`false` case-insensitively, then float if `float(...)`
accepts, else the string itself. -/
def coerceValue (value : String) : CValue :=
  if pyIsDigit value then .vInt (digitsToNat value.data 0)
  else if pyLower value = "true" || pyLower value = "false" then
    .vBool (pyLower value = "true")
  else if pyFloatAccepts value then .vFloat value
  else .vStr value

/-- One iteration of `read_config_file`'s line loop
(bin/config_reader.py lines 22-45): strip the line, skip blank and
comment lines, split `key=value` at the first `=`, strip both parts
and coerce the value.  `none` means the line contributes nothing to
the dictionary. -/
def parseConfigLine (raw : String) : Option (String × CValue) :=
  let line := pyStrip raw
  if line.data.isEmpty then none
  else if line.data.head? = some '#' then none
  else
    match splitAtChar '=' line.data with
    | some (k, v) => some (pyStrip ⟨k⟩, coerceValue (pyStrip ⟨v⟩))
    | none => none

/-- Split a text into its newline-separated lines. -/
def splitLinesL : List Char → List (List Char)
  | [] => [[]]
  | c :: cs =>
    if c = '\n' then [] :: splitLinesL cs
    else
      match splitLinesL cs with
      | l :: ls => (c :: l) :: ls
      | [] => [[c]]

/-- Lines of a string, as Python's file iteration yields them (the
trailing `\n` kept by Python is immaterial because every line is
stripped). -/
def splitLines (s : String) : List String :=
  (splitLinesL s.data).map (fun l => ⟨l⟩)

/-- Lookup in an insertion-ordered dictionary. -/
def dlookup : List (String × CValue) → String → Option CValue
  | [], _ => none
  | (k', v) :: d, k => if k' = k then some v else dlookup d k

/-- CPython dict assignment `d[k] = v`: update the entry in place when
the key exists, append the new pair at the end otherwise. -/
def dictInsert : List (String × CValue) → String → CValue → List (String × CValue)
  | [], k, v => [(k, v)]
  | (k₁, v₁) :: d, k, v =>
    if k₁ = k then (k, v) :: d else (k₁, v₁) :: dictInsert d k v

/-- `read_config_file` (bin/config_reader.py lines 9-47), with the
file's text passed in place of the filesystem read. -/
def read_config_file (text : String) : List (String × CValue) :=
  (splitLines text).foldl
    (fun config line =>
      match parseConfigLine line with
      | some (k, v) => dictInsert config k v
      | none => config)
    []

/-- CPython `d.update(other)`: assign `other`'s pairs into `d` in
`other`'s order. -/
def dictUpdate (d other : List (String × CValue)) : List (String × CValue) :=
  other.foldl (fun acc p => dictInsert acc p.1 p.2) d

/-- `get_config` (bin/config_reader.py lines 50-60): application config
updated with the secrets config.  `secretsText = none` models the
`FileNotFoundError` branch for a missing secrets.config, which is
caught: the application config is returned as is. -/
def get_config (appText : String) (secretsText : Option String) :
    List (String × CValue) :=
  match secretsText with
  | some s => dictUpdate (read_config_file appText) (read_config_file s)
  | none => read_config_file appText

theorem modelCheck1 : parseConfigLine "  FOO = 12 " = some ("FOO", .vInt 12) := by decide
theorem modelCheck2 : parseConfigLine " # x=1" = none := by decide
theorem modelCheck3 : parseConfigLine "" = none := by decide
theorem modelCheck4 : parseConfigLine "no equals here" = none := by decide
theorem modelCheck5 : parseConfigLine "K=a=b" = some ("K", .vStr "a=b") := by decide
theorem modelCheck6 : parseConfigLine "K=True" = some ("K", .vBool true) := by decide
theorem modelCheck7 : parseConfigLine "K=FALSE" = some ("K", .vBool false) := by decide
theorem modelCheck8 : parseConfigLine "K=-3" = some ("K", .vFloat "-3") := by decide
theorem modelCheck9 : parseConfigLine "K=3.5e2" = some ("K", .vFloat "3.5e2") := by decide
theorem modelCheck10 : parseConfigLine "K=1_0" = some ("K", .vFloat "1_0") := by decide
theorem modelCheck11 : parseConfigLine "K=inf" = some ("K", .vFloat "inf") := by decide
theorem modelCheck12 : parseConfigLine "K=." = some ("K", .vStr ".") := by decide
theorem modelCheck13 : parseConfigLine "K=" = some ("K", .vStr "") := by decide
theorem modelCheck14 : pyIntOfString " -42 " = some (-42) := by decide
theorem modelCheck15 : pyIntOfString "4_2" = some 42 := by decide
theorem modelCheck16 : pyIntOfString "x" = none := by decide
theorem modelCheck17 : pyFloatAccepts "1." = true := by decide
theorem modelCheck18 : pyFloatAccepts ".5" = true := by decide
theorem modelCheck19 : pyFloatAccepts "." = false := by decide
theorem modelCheck20 : pyFloatAccepts "1e" = false := by decide
theorem modelCheck21 : pyFloatAccepts "1e+3" = true := by decide
theorem modelCheck22 : pyFloatAccepts "_1" = false := by decide
theorem modelCheck23 : pyFloatAccepts "1_" = false := by decide
theorem modelCheck24 : pyFloatAccepts "1__2" = false := by decide

theorem splitAtChar_of_not_mem (c : Char) (l : List Char) (h : c ∉ l) :
    splitAtChar c l = none := by
  induction l with
  | nil => rfl
  | cons a as ih =>
    simp only [splitAtChar]
    rw [if_neg (by simp at h; exact fun hc => h.1 hc.symm)]
    rw [ih (by simp at h; exact h.2)]
    rfl


theorem splitAtChar_first (c : Char) (k v : List Char) (h : c ∉ k) :
    splitAtChar c (k ++ c :: v) = some (k, v) := by
  induction k with
  | nil => simp [splitAtChar]
  | cons a as ih =>
    have ha : ¬(a = c) := fun hc => h (hc ▸ List.mem_cons_self a as)
    have h2 : c ∉ as := fun hc => h (List.mem_cons_of_mem a hc)
    show splitAtChar c (a :: (as ++ c :: v)) = some (a :: as, v)
    simp only [splitAtChar, if_neg ha]
    rw [ih h2]
    rfl

/-- Keys of a dictionary are pairwise distinct (an invariant of every
dictionary a Python program can hold). -/
def keysNodup (d : List (String × CValue)) : Prop :=
  (d.map Prod.fst).Nodup

theorem dlookup_dictInsert (d : List (String × CValue)) (k : String) (v : CValue)
    (k' : String) :
    dlookup (dictInsert d k v) k' = if k' = k then some v else dlookup d k' := by
  induction d with
  | nil =>
    simp only [dictInsert, dlookup]
    by_cases h : k = k'
    · rw [if_pos h, if_pos h.symm]
    · rw [if_neg h, if_neg (fun hh : k' = k => h hh.symm)]
  | cons p d ih =>
    rcases p with ⟨k₁, v₁⟩
    simp only [dictInsert]
    by_cases h1 : k₁ = k
    · rw [if_pos h1]
      show (if k = k' then some v else dlookup d k') = _
      by_cases h : k = k'
      · rw [if_pos h, if_pos h.symm]
      · rw [if_neg h, if_neg (fun hh : k' = k => h hh.symm)]
        show _ = (if k₁ = k' then some v₁ else dlookup d k')
        rw [if_neg (fun hh : k₁ = k' => h (h1.symm.trans hh))]
    · rw [if_neg h1]
      show (if k₁ = k' then some v₁ else dlookup (dictInsert d k v) k') = _
      rw [ih]
      by_cases h2 : k₁ = k'
      · have hk : ¬(k' = k) := fun hh => h1 (h2.trans hh)
        rw [if_pos h2, if_neg hk]
        show _ = (if k₁ = k' then some v₁ else dlookup d k')
        rw [if_pos h2]
      · rw [if_neg h2]
        by_cases h3 : k' = k
        · rw [if_pos h3, if_pos h3]
        · rw [if_neg h3, if_neg h3]
          show _ = (if k₁ = k' then some v₁ else dlookup d k')
          rw [if_neg h2]

theorem mem_keys_dictInsert (d : List (String × CValue)) (k : String) (v : CValue)
    (a : String) (ha : a ∈ (dictInsert d k v).map Prod.fst) :
    a = k ∨ a ∈ d.map Prod.fst := by
  induction d with
  | nil =>
    simp only [dictInsert, List.map_cons, List.map_nil, List.mem_singleton] at ha
    exact Or.inl ha
  | cons p d ih =>
    rcases p with ⟨k₁, v₁⟩
    simp only [dictInsert] at ha
    by_cases h1 : k₁ = k
    · rw [if_pos h1] at ha
      simp only [List.map_cons, List.mem_cons] at ha
      rcases ha with ha | ha
      · exact Or.inl ha
      · exact Or.inr (by rw [List.map_cons]; exact List.mem_cons_of_mem _ ha)
    · rw [if_neg h1] at ha
      simp only [List.map_cons, List.mem_cons] at ha
      rcases ha with ha | ha
      · exact Or.inr (by rw [List.map_cons, ha]; exact List.mem_cons_self _ _)
      · rcases ih ha with hh | hh
        · exact Or.inl hh
        · exact Or.inr (by rw [List.map_cons]; exact List.mem_cons_of_mem _ hh)

theorem keysNodup_dictInsert (d : List (String × CValue)) (k : String) (v : CValue) :
    keysNodup d → keysNodup (dictInsert d k v) := by
  induction d with
  | nil => intro _; simp [dictInsert, keysNodup]
  | cons p d ih =>
    intro h
    rcases p with ⟨k₁, v₁⟩
    unfold keysNodup at h ⊢
    simp only [List.map_cons, List.nodup_cons] at h
    simp only [dictInsert]
    by_cases h1 : k₁ = k
    · rw [if_pos h1]
      simp only [List.map_cons, List.nodup_cons]
      exact ⟨h1 ▸ h.1, h.2⟩
    · rw [if_neg h1]
      simp only [List.map_cons, List.nodup_cons]
      constructor
      · intro hmem
        rcases mem_keys_dictInsert d k v k₁ hmem with hh | hh
        · exact h1 hh
        · exact h.1 hh
      · exact ih h.2

theorem dlookup_eq_none_iff (d : List (String × CValue)) (k : String) :
    dlookup d k = none ↔ k ∉ d.map Prod.fst := by
  induction d with
  | nil => simp [dlookup]
  | cons p d ih =>
    rcases p with ⟨k₁, v₁⟩
    simp only [dlookup, List.map_cons, List.mem_cons]
    by_cases h1 : k₁ = k
    · rw [if_pos h1]
      simp [h1]
    · rw [if_neg h1]
      rw [ih]
      constructor
      · rintro h (hh | hh)
        · exact h1 hh.symm
        · exact h hh
      · intro h hh
        exact h (Or.inr hh)

theorem dlookup_dictUpdate (d other : List (String × CValue)) (k : String)
    (h : keysNodup other) :
    dlookup (dictUpdate d other) k =
      match dlookup other k with
      | some v => some v
      | none => dlookup d k := by
  induction other generalizing d with
  | nil => rfl
  | cons p rest ih =>
    rcases p with ⟨k₂, v₂⟩
    unfold keysNodup at h
    simp only [List.map_cons, List.nodup_cons] at h
    show dlookup (dictUpdate (dictInsert d k₂ v₂) rest) k = _
    rw [ih _ h.2]
    by_cases h2 : k₂ = k
    · subst h2
      have hnone : dlookup rest k₂ = none := (dlookup_eq_none_iff rest k₂).2 h.1
      have hc : dlookup ((k₂, v₂) :: rest) k₂ = some v₂ := by
        show (if k₂ = k₂ then some v₂ else dlookup rest k₂) = some v₂
        rw [if_pos rfl]
      rw [hnone, hc]
      show dlookup (dictInsert d k₂ v₂) k₂ = some v₂
      rw [dlookup_dictInsert, if_pos rfl]
    · have hc : dlookup ((k₂, v₂) :: rest) k = dlookup rest k := by
        show (if k₂ = k then some v₂ else dlookup rest k) = dlookup rest k
        rw [if_neg h2]
      rw [hc]
      cases hr : dlookup rest k with
      | some w => rfl
      | none =>
        show dlookup (dictInsert d k₂ v₂) k = dlookup d k
        rw [dlookup_dictInsert, if_neg (fun hh : k = k₂ => h2 hh.symm)]

theorem keysNodup_read_config (text : String) : keysNodup (read_config_file text) := by
  unfold read_config_file
  have main : ∀ (lines : List String) (d : List (String × CValue)), keysNodup d →
      keysNodup (lines.foldl
        (fun config line =>
          match parseConfigLine line with
          | some (k, v) => dictInsert config k v
          | none => config) d) := by
    intro lines
    induction lines with
    | nil => intro d hd; exact hd
    | cons l ls ih =>
      intro d hd
      simp only [List.foldl_cons]
      cases hp : parseConfigLine l with
      | none => exact ih d hd
      | some kv =>
        rcases kv with ⟨k, v⟩
        exact ih _ (keysNodup_dictInsert d k v hd)
  exact main _ [] (by simp [keysNodup])

/-- C1: in `read_config_file`, a line that is blank (empty after
stripping) or whose stripped form starts with '#' is skipped; every
other line containing '=' is split at the first '=' into a key and a
value, both stripped of surrounding whitespace; the value is coerced
to an int when it is all digits, else to a bool when it equals
true/false case-insensitively, else to a float when Python float
parsing accepts it, and kept as a string otherwise; a line without '='
contributes nothing. -/
theorem c1_config_line_parse (raw : String) :
    (pyStrip raw = "" ∨ (pyStrip raw).data.head? = some '#' →
      parseConfigLine raw = none)
    ∧ ((pyStrip raw).data.head? ≠ some '#' →
      ∀ k v : List Char, (pyStrip raw).data = k ++ '=' :: v → '=' ∉ k →
        parseConfigLine raw = some (pyStrip ⟨k⟩, coerceValue (pyStrip ⟨v⟩)))
    ∧ ('=' ∉ (pyStrip raw).data → parseConfigLine raw = none)
    ∧ (∀ value : String,
        (pyIsDigit value = true →
          coerceValue value = CValue.vInt (digitsToNat value.data 0))
        ∧ (pyIsDigit value = false →
          (pyLower value = "true" ∨ pyLower value = "false") →
            coerceValue value = CValue.vBool (pyLower value = "true"))
        ∧ (pyIsDigit value = false →
          ¬(pyLower value = "true" ∨ pyLower value = "false") →
            pyFloatAccepts value = true → coerceValue value = CValue.vFloat value)
        ∧ (pyIsDigit value = false →
          ¬(pyLower value = "true" ∨ pyLower value = "false") →
            pyFloatAccepts value = false → coerceValue value = CValue.vStr value)) := by
  refine ⟨?_, ?_, ?_, ?_⟩
  · rintro (h | h)
    · simp only [parseConfigLine]
      rw [h]
      rfl
    · simp only [parseConfigLine]
      have hne : ¬((pyStrip raw).data.isEmpty = true) := by
        cases hd : (pyStrip raw).data with
        | nil => rw [hd] at h; simp at h
        | cons c cs => simp
      rw [if_neg hne, if_pos h]
  · intro hhash k v hsplit hk
    have hne : ¬((pyStrip raw).data.isEmpty = true) := by
      rw [hsplit]; cases k <;> simp
    simp only [parseConfigLine]
    rw [if_neg hne, if_neg hhash, hsplit, splitAtChar_first '=' k v hk]
  · intro h
    simp only [parseConfigLine]
    by_cases he : (pyStrip raw).data.isEmpty = true
    · rw [if_pos he]
    · rw [if_neg he]
      by_cases hh : (pyStrip raw).data.head? = some '#'
      · rw [if_pos hh]
      · rw [if_neg hh, splitAtChar_of_not_mem '=' _ h]
  · intro value
    refine ⟨?_, ?_, ?_, ?_⟩
    · intro h
      simp only [coerceValue]
      rw [if_pos h]
    · intro h hb
      simp only [coerceValue]
      rw [if_neg (by simp [h]), if_pos (by simp [hb])]
    · intro h hb hf
      simp only [coerceValue]
      rw [if_neg (by simp [h]), if_neg (by simpa using hb), if_pos hf]
    · intro h hb hf
      simp only [coerceValue]
      rw [if_neg (by simp [h]), if_neg (by simpa using hb), if_neg (by simp [hf])]

/-- Witness for C1 at the concrete line "  FOO = 12 ". -/
theorem c1_witness :
    parseConfigLine "  FOO = 12 " = some ("FOO", CValue.vInt 12) := by
  have h := (c1_config_line_parse "  FOO = 12 ").2.1 (by decide)
    "FOO ".data " 12".data (by decide) (by decide)
  exact h.trans (by decide)

/-- C10: `get_config` merges the two parsed config files with secrets
taking precedence: a key present in the parsed secrets dictionary gets
the secrets value, a key absent from it keeps the application value,
and when secrets.config is missing (the caught FileNotFoundError
branch) the result is exactly the parsed application config. -/
theorem c10_get_config_merge (appText secretsText k : String) :
    ((dlookup (read_config_file secretsText) k).isSome = true →
      dlookup (get_config appText (some secretsText)) k =
        dlookup (read_config_file secretsText) k)
    ∧ (dlookup (read_config_file secretsText) k = none →
      dlookup (get_config appText (some secretsText)) k =
        dlookup (read_config_file appText) k)
    ∧ get_config appText none = read_config_file appText := by
  refine ⟨?_, ?_, rfl⟩
  · intro h
    show dlookup (dictUpdate (read_config_file appText) (read_config_file secretsText)) k = _
    rw [dlookup_dictUpdate _ _ _ (keysNodup_read_config secretsText)]
    cases hs : dlookup (read_config_file secretsText) k with
    | some v => rfl
    | none => rw [hs] at h; simp at h
  · intro h
    show dlookup (dictUpdate (read_config_file appText) (read_config_file secretsText)) k = _
    rw [dlookup_dictUpdate _ _ _ (keysNodup_read_config secretsText), h]

/-- Witness for C10 on concrete file texts: key B is in both files and
takes the secrets value, key A only in the application file. -/
theorem c10_witness :
    dlookup (get_config "A=1\nB=2" (some "B=3")) "B" = some (CValue.vInt 3)
    ∧ dlookup (get_config "A=1\nB=2" (some "B=3")) "A" = some (CValue.vInt 1) := by
  constructor
  · exact ((c10_get_config_merge "A=1\nB=2" "B=3" "B").1 (by decide)).trans (by decide)
  · exact ((c10_get_config_merge "A=1\nB=2" "B=3" "A").2.1 (by decide)).trans (by decide)

/-- Python `str.split(sep, maxsplit)` on a single-character separator:
split at the first `maxsplit` occurrences, keep the remainder whole. -/
def splitSepMax (sep : Char) : Nat → List Char → List (List Char)
  | 0, l => [l]
  | maxsplit + 1, l =>
    match splitAtChar sep l with
    | none => [l]
    | some (a, rest) => a :: splitSepMax sep maxsplit rest

/-- `output_progress` (bin/utils/common.py lines 11-27): the
standardized progress line printed for GUI/TUI parsing, without the
trailing newline added by `print`. -/
def output_progress (successful failures processed total : Nat)
    (current_item : String) : String :=
  "PROGRESS|" ++ natRepr successful ++ "|" ++ natRepr failures ++ "|"
    ++ natRepr processed ++ "|" ++ natRepr total ++ "|" ++ current_item

/-- `parse_progress_line` (bin/utils/ui_helpers.py lines 208-233):
lines starting with `PROGRESS|` have the prefix dropped and the rest
split at the first four `|`; with five parts, the first four are parsed
by `int(...)` (a failure raises `ValueError`, caught to return `None`)
and the fifth is stripped. -/
def parse_progress_line (line : String) :
    Option (Int × Int × Int × Int × String) :=
  if "PROGRESS|".data.isPrefixOf line.data then
    match splitSepMax '|' 4 (line.data.drop 9) with
    | [p0, p1, p2, p3, p4] =>
      (pyIntOfString ⟨p0⟩).bind fun s =>
        (pyIntOfString ⟨p1⟩).bind fun f =>
          (pyIntOfString ⟨p2⟩).bind fun p =>
            (pyIntOfString ⟨p3⟩).map fun t => (s, f, p, t, pyStrip ⟨p4⟩)
    | _ => none
  else none

theorem ws_not_digit (c : Char) (h : isPyWs c = true) : isAsciiDigit c = false := by
  simp only [isPyWs, Bool.or_eq_true, decide_eq_true_eq] at h
  rcases h with ((((h | h) | h) | h) | h) | h <;> subst h <;> decide

theorem digit_not_ws (c : Char) (h : isAsciiDigit c = true) : isPyWs c = false := by
  cases hw : isPyWs c
  · rfl
  · rw [ws_not_digit c hw] at h
    exact Bool.noConfusion h

theorem digit_ne (c x : Char) (h : isAsciiDigit c = true)
    (hx : isAsciiDigit x = false) : c ≠ x := by
  intro he
  subst he
  rw [h] at hx
  exact Bool.noConfusion hx

theorem dropWhile_eq_self_of_all (p : Char → Bool) (l : List Char)
    (h : ∀ c ∈ l, p c = false) : l.dropWhile p = l := by
  cases l with
  | nil => rfl
  | cons c cs =>
    rw [List.dropWhile_cons, if_neg]
    simp [h c (List.mem_cons_self c cs)]

theorem pyStripL_eq_self_of_all (l : List Char)
    (h : ∀ c ∈ l, isPyWs c = false) : pyStripL l = l := by
  unfold pyStripL
  rw [dropWhile_eq_self_of_all _ _ h]
  rw [dropWhile_eq_self_of_all _ _ (by intro c hc; exact h c (List.mem_reverse.1 hc))]
  exact List.reverse_reverse l

theorem isPrefixOf_append_self (a b : List Char) : a.isPrefixOf (a ++ b) = true := by
  induction a with
  | nil => simp [List.isPrefixOf]
  | cons c cs ih => simp [List.isPrefixOf, ih]

theorem drop_after_tag (rest : List Char) :
    ("PROGRESS|".data ++ rest).drop 9 = rest := by
  have h : "PROGRESS|".data.length = 9 := rfl
  rw [← h, List.drop_left]

theorem splitSepMax_step (sep : Char) (m : Nat) (a rest : List Char) (h : sep ∉ a) :
    splitSepMax sep (m + 1) (a ++ sep :: rest) = a :: splitSepMax sep m rest := by
  simp only [splitSepMax, splitAtChar_first sep a rest h]

theorem pipe_not_mem_natRepr (n : Nat) : '|' ∉ (natRepr n).data := by
  intro hmem
  have := natRepr_all_digits n '|' hmem
  exact absurd this (by decide)

theorem digitGroupRest_of_all (l : List Char)
    (h : ∀ c ∈ l, isAsciiDigit c = true) : digitGroupRest l = true := by
  induction l with
  | nil => rfl
  | cons c cs ih =>
    have hc := h c (List.mem_cons_self c cs)
    have hu := digit_ne c '_' hc (by decide)
    cases cs with
    | nil => simp [digitGroupRest, hc, hu]
    | cons c₂ cs₂ =>
      simp [digitGroupRest, hc, hu,
        ih (fun x hx => h x (List.mem_cons_of_mem c hx)),
        h c₂ (List.mem_cons_of_mem c (List.mem_cons_self c₂ cs₂))]

theorem isDigitGroup_of_all (l : List Char) (hne : l ≠ [])
    (h : ∀ c ∈ l, isAsciiDigit c = true) : isDigitGroup l = true := by
  cases l with
  | nil => exact absurd rfl hne
  | cons c cs =>
    simp only [isDigitGroup]
    rw [h c (List.mem_cons_self c cs),
      digitGroupRest_of_all cs (fun x hx => h x (List.mem_cons_of_mem c hx))]
    rfl

theorem pyIntOfString_natRepr (n : Nat) : pyIntOfString (natRepr n) = some (n : Int) := by
  have hdig := natRepr_all_digits n
  have hstrip : pyStripL (natRepr n).data = (natRepr n).data :=
    pyStripL_eq_self_of_all _ (fun c hc => digit_not_ws c (hdig c hc))
  have hne := natRepr_ne_nil n
  unfold pyIntOfString
  rw [hstrip]
  have hhead : ∀ x : Char, isAsciiDigit x = false → (natRepr n).data.head? ≠ some x := by
    intro x hx hh
    cases hd : (natRepr n).data with
    | nil => exact hne hd
    | cons c cs =>
      rw [hd] at hh
      simp at hh
      subst hh
      have := hdig c (by rw [hd]; exact List.mem_cons_self c cs)
      rw [this] at hx
      exact Bool.noConfusion hx
  have hplus := hhead '+' (by decide)
  have hminus := hhead '-' (by decide)
  have hfilter : List.filter (fun c => !decide (c = '_')) (natRepr n).data
      = (natRepr n).data := by
    rw [List.filter_eq_self]
    intro c hc
    simp [digit_ne c '_' (hdig c hc) (by decide)]
  simp [hplus, hminus, isDigitGroup_of_all _ hne hdig, hfilter, digitsToNat_natRepr]

theorem pyIntOfString_mk_natRepr (n : Nat) :
    pyIntOfString ⟨(natRepr n).data⟩ = some (n : Int) :=
  pyIntOfString_natRepr n

/-- C3: the progress-line convention round-trips: parsing the line
emitted by output_progress returns exactly the emitted numbers and
description (for a single-line description with no surrounding
whitespace; pipes in the description survive thanks to maxsplit 4);
a line not starting with PROGRESS| parses to None, and so does a
PROGRESS| line with five fields whose first four are not all
int-parseable. -/
theorem c3_progress_roundtrip :
    (∀ (s f p t : Nat) (item : String),
      pyStrip item = item → '\n' ∉ item.data →
      parse_progress_line (output_progress s f p t item) =
        some ((s : Int), (f : Int), (p : Int), (t : Int), item))
    ∧ (∀ line : String, "PROGRESS|".data.isPrefixOf line.data = false →
      parse_progress_line line = none)
    ∧ (∀ line : String, ∀ p0 p1 p2 p3 p4 : List Char,
      splitSepMax '|' 4 (line.data.drop 9) = [p0, p1, p2, p3, p4] →
      (pyIntOfString ⟨p0⟩ = none ∨ pyIntOfString ⟨p1⟩ = none ∨
        pyIntOfString ⟨p2⟩ = none ∨ pyIntOfString ⟨p3⟩ = none) →
      parse_progress_line line = none) := by
  refine ⟨?_, ?_, ?_⟩
  · intro s f p t item hstrip hnl
    have e1 : (⟨item.data⟩ : String) = item := rfl
    have hdata : (output_progress s f p t item).data
        = "PROGRESS|".data ++ ((natRepr s).data ++ '|' :: ((natRepr f).data
          ++ '|' :: ((natRepr p).data ++ '|' :: ((natRepr t).data
          ++ '|' :: item.data)))) := by
      have hp : "|".data = ['|'] := rfl
      simp [output_progress, hp]
    unfold parse_progress_line
    rw [hdata, isPrefixOf_append_self, if_pos rfl, drop_after_tag]
    rw [splitSepMax_step '|' 3 _ _ (pipe_not_mem_natRepr s)]
    rw [splitSepMax_step '|' 2 _ _ (pipe_not_mem_natRepr f)]
    rw [splitSepMax_step '|' 1 _ _ (pipe_not_mem_natRepr p)]
    rw [splitSepMax_step '|' 0 _ _ (pipe_not_mem_natRepr t)]
    simp [splitSepMax, pyIntOfString_mk_natRepr, e1, hstrip]
  · intro line hpre
    unfold parse_progress_line
    rw [hpre]
    simp
  · intro line p0 p1 p2 p3 p4 hsplit hbad
    unfold parse_progress_line
    by_cases hpre : "PROGRESS|".data.isPrefixOf line.data = true
    · rw [if_pos hpre, hsplit]
      rcases hbad with h0 | h1 | h2 | h3
      · simp [h0]
      · cases ho : pyIntOfString ⟨p0⟩ <;> simp [ho, h1]
      · cases ho : pyIntOfString ⟨p0⟩ <;> cases ho1 : pyIntOfString ⟨p1⟩ <;>
          simp [ho, ho1, h2]
      · cases ho : pyIntOfString ⟨p0⟩ <;> cases ho1 : pyIntOfString ⟨p1⟩ <;>
          cases ho2 : pyIntOfString ⟨p2⟩ <;> simp [ho, ho1, ho2, h3]
    · rw [if_neg hpre]

/-- Witness for C3 at the docstring's own example values. -/
theorem c3_witness :
    parse_progress_line (output_progress 5 1 6 10 "Downloading article 7")
      = some (5, 1, 6, 10, "Downloading article 7") :=
  c3_progress_roundtrip.1 5 1 6 10 "Downloading article 7" (by decide) (by decide)

/-- `upload_file` (bin/upload_to_epaper.py lines 77-125), with the HTTP
outcome passed in: `some code` is a completed POST with that status,
`none` a raised exception (RequestException or any other, both caught).
Returns True exactly on HTTP 200. -/
def upload_file (response : Option Nat) : Bool :=
  match response with
  | some code => code == 200
  | none => false

/-- State threaded through the upload loop of `main`
(bin/upload_to_epaper.py lines 218-265): the success and failure
counters and the list of successfully uploaded files. -/
structure UploadState where
  success_count : Nat
  fail_count : Nat
  uploaded_files : List String
deriving DecidableEq

/-- The upload loop of `main` (bin/upload_to_epaper.py lines 253-265):
each file is uploaded in turn; on success the file is appended to
uploaded_files, on failure only fail_count grows.  `response` gives
each file's HTTP outcome. -/
def uploadLoop (response : String → Option Nat) :
    List String → UploadState → UploadState
  | [], st => st
  | fp :: rest, st =>
    if upload_file (response fp) then
      uploadLoop response rest
        ⟨st.success_count + 1, st.fail_count, st.uploaded_files ++ [fp]⟩
    else
      uploadLoop response rest
        ⟨st.success_count, st.fail_count + 1, st.uploaded_files⟩

/-- The cleanup phase of `main` (bin/upload_to_epaper.py lines
270-283): unless --keep-files was given, os.remove is attempted on
exactly the successfully uploaded files; `removeOk` tells whether a
removal succeeds (an OS error is caught and the file stays).  The
result is the list of files actually deleted from disk. -/
def mainDeletedFiles (keep_files : Bool) (response : String → Option Nat)
    (removeOk : String → Bool) (files : List String) : List String :=
  if keep_files then []
  else ((uploadLoop response files ⟨0, 0, []⟩).uploaded_files).filter removeOk

theorem mem_uploadLoop (response : String → Option Nat) (files : List String)
    (st : UploadState) (fp : String)
    (h : fp ∈ (uploadLoop response files st).uploaded_files) :
    fp ∈ st.uploaded_files ∨ (fp ∈ files ∧ upload_file (response fp) = true) := by
  induction files generalizing st with
  | nil => exact Or.inl h
  | cons g rest ih =>
    simp only [uploadLoop] at h
    by_cases hg : upload_file (response g) = true
    · rw [if_pos hg] at h
      rcases ih _ h with hh | hh
      · simp only [List.mem_append, List.mem_singleton] at hh
        rcases hh with hh | hh
        · exact Or.inl hh
        · rw [hh]
          exact Or.inr ⟨List.mem_cons_self g rest, hh ▸ hg⟩
      · exact Or.inr ⟨List.mem_cons_of_mem g hh.1, hh.2⟩
    · rw [if_neg hg] at h
      rcases ih _ h with hh | hh
      · exact Or.inl hh
      · exact Or.inr ⟨List.mem_cons_of_mem g hh.1, hh.2⟩

/-- C4: in the uploader's main flow a local file is deleted only when
its upload returned HTTP 200 (upload_file returned True) and
--keep-files was absent; a file whose upload failed or errored is
never in the deletion list, and upload_file succeeds exactly on
status 200. -/
theorem c4_delete_only_uploaded (keep : Bool) (response : String → Option Nat)
    (removeOk : String → Bool) (files : List String) (fp : String) :
    (fp ∈ mainDeletedFiles keep response removeOk files →
      response fp = some 200 ∧ keep = false)
    ∧ (upload_file (response fp) = false →
      fp ∉ mainDeletedFiles keep response removeOk files)
    ∧ (upload_file (response fp) = true ↔ response fp = some 200) := by
  have hiff : upload_file (response fp) = true ↔ response fp = some 200 := by
    cases hr : response fp with
    | none => simp [upload_file]
    | some code => simp [upload_file]
  refine ⟨?_, ?_, hiff⟩
  · intro hmem
    unfold mainDeletedFiles at hmem
    cases keep with
    | true => simp at hmem
    | false =>
      rw [if_neg (by simp)] at hmem
      have h1 := List.mem_of_mem_filter hmem
      rcases mem_uploadLoop response files ⟨0, 0, []⟩ fp h1 with hh | hh
      · simp at hh
      · exact ⟨hiff.1 hh.2, rfl⟩
  · intro hfail hmem
    unfold mainDeletedFiles at hmem
    cases keep with
    | true => simp at hmem
    | false =>
      rw [if_neg (by simp)] at hmem
      have h1 := List.mem_of_mem_filter hmem
      rcases mem_uploadLoop response files ⟨0, 0, []⟩ fp h1 with hh | hh
      · simp at hh
      · rw [hh.2] at hfail
        exact Bool.noConfusion hfail

/-- Witness for C4: with file a returning 200 and file b returning
500, only a is deleted and b stays on disk. -/
theorem c4_witness :
    upload_file ((fun f => if f = "a" then some 200 else some 500) "b") = false
    ∧ "b" ∉ mainDeletedFiles false (fun f => if f = "a" then some 200 else some 500)
        (fun _ => true) ["a", "b"]
    ∧ "a" ∈ mainDeletedFiles false (fun f => if f = "a" then some 200 else some 500)
        (fun _ => true) ["a", "b"] :=
  ⟨by decide,
    (c4_delete_only_uploaded false (fun f => if f = "a" then some 200 else some 500)
      (fun _ => true) ["a", "b"] "b").2.1 (by decide),
    by decide⟩

/-- Chrome partial downloads: the files matched by
Path.glob("*.crdownload") in the observed directory listing. -/
def crdownloadFiles (files : List String) : List String :=
  files.filter (fun f => ".crdownload".data.isSuffixOf f.data)

/-- Converter output files, in the glob order used by
wait_for_download (bin/converters/convert_epub_to_xtc.py lines
100-105): all .xtc files, then .xtg, then .xth, then .xtch. -/
def outputFiles (files : List String) : List String :=
  files.filter (fun f => ".xtc".data.isSuffixOf f.data)
    ++ files.filter (fun f => ".xtg".data.isSuffixOf f.data)
    ++ files.filter (fun f => ".xth".data.isSuffixOf f.data)
    ++ files.filter (fun f => ".xtch".data.isSuffixOf f.data)

/-- The polling loop of wait_for_download (lines 93-109): at each
second, when no .crdownload file is present and an output file exists,
return the first output file; otherwise sleep one second and retry
while seconds < timeout.  The fuel argument is timeout - seconds. -/
def waitPoll (states : Nat → List String) : Nat → Nat → Option String
  | 0, _ => none
  | fuel + 1, seconds =>
    if crdownloadFiles (states seconds) = [] then
      match outputFiles (states seconds) with
      | f :: _ => some f
      | [] => waitPoll states fuel (seconds + 1)
    else waitPoll states fuel (seconds + 1)

/-- wait_for_download (bin/converters/convert_epub_to_xtc.py lines
91-111), with the sequence of observed directory listings passed in:
`states i` is the listing at the i-th poll. -/
def wait_for_download (states : Nat → List String) (timeout : Nat) : Option String :=
  waitPoll states timeout 0

/-- A poll that terminates the wait: no incomplete download and at
least one output file present. -/
def goodPoll (states : Nat → List String) (i : Nat) : Prop :=
  crdownloadFiles (states i) = [] ∧ outputFiles (states i) ≠ []

theorem waitPoll_eq_some (states : Nat → List String) :
    ∀ (fuel start : Nat) (f : String),
      waitPoll states fuel start = some f ↔
        ∃ i, start ≤ i ∧ i < start + fuel ∧ goodPoll states i ∧
          (∀ j, start ≤ j → j < i → ¬goodPoll states j) ∧
          (outputFiles (states i)).head? = some f := by
  intro fuel
  induction fuel with
  | zero =>
    intro start f
    simp only [waitPoll]
    constructor
    · intro h; exact Option.noConfusion h
    · rintro ⟨i, h1, h2, _⟩; omega
  | succ fuel ih =>
    intro start f
    simp only [waitPoll]
    by_cases hcr : crdownloadFiles (states start) = []
    · rw [if_pos hcr]
      cases ho : outputFiles (states start) with
      | cons g rest =>
        constructor
        · intro h
          simp only [Option.some.injEq] at h
          refine ⟨start, Nat.le_refl start, by omega, ⟨hcr, by rw [ho]; simp⟩,
            fun j h1 h2 => absurd h1 (by omega), by rw [ho, h]; rfl⟩
        · rintro ⟨i, h1, h2, hgood, hmin, hhead⟩
          have hi : i = start := by
            by_contra hne
            exact hmin start (Nat.le_refl start) (by omega) ⟨hcr, by rw [ho]; simp⟩
          rw [hi, ho] at hhead
          simpa using hhead
      | nil =>
        have hbad : ¬goodPoll states start := fun hg => hg.2 ho
        rw [ih (start + 1) f]
        constructor
        · rintro ⟨i, h1, h2, hgood, hmin, hhead⟩
          exact ⟨i, by omega, by omega, hgood,
            fun j hj1 hj2 => by
              rcases Nat.eq_or_lt_of_le hj1 with he | hl
              · rw [← he]; exact hbad
              · exact hmin j hl hj2, hhead⟩
        · rintro ⟨i, h1, h2, hgood, hmin, hhead⟩
          have hi : start + 1 ≤ i := by
            rcases Nat.eq_or_lt_of_le h1 with he | hl
            · exact absurd (he ▸ hgood) hbad
            · omega
          exact ⟨i, hi, by omega, hgood,
            fun j hj1 hj2 => hmin j (by omega) hj2, hhead⟩
    · rw [if_neg hcr]
      have hbad : ¬goodPoll states start := fun hg => hcr hg.1
      rw [ih (start + 1) f]
      constructor
      · rintro ⟨i, h1, h2, hgood, hmin, hhead⟩
        exact ⟨i, by omega, by omega, hgood,
          fun j hj1 hj2 => by
            rcases Nat.eq_or_lt_of_le hj1 with he | hl
            · rw [← he]; exact hbad
            · exact hmin j hl hj2, hhead⟩
      · rintro ⟨i, h1, h2, hgood, hmin, hhead⟩
        have hi : start + 1 ≤ i := by
          rcases Nat.eq_or_lt_of_le h1 with he | hl
          · exact absurd (he ▸ hgood) hbad
          · omega
        exact ⟨i, hi, by omega, hgood,
          fun j hj1 hj2 => hmin j (by omega) hj2, hhead⟩

theorem waitPoll_eq_none (states : Nat → List String) :
    ∀ (fuel start : Nat),
      waitPoll states fuel start = none ↔
        ∀ i, start ≤ i → i < start + fuel → ¬goodPoll states i := by
  intro fuel
  induction fuel with
  | zero =>
    intro start
    simp only [waitPoll]
    constructor
    · intro _ i h1 h2; omega
    · intro _; trivial
  | succ fuel ih =>
    intro start
    simp only [waitPoll]
    by_cases hcr : crdownloadFiles (states start) = []
    · rw [if_pos hcr]
      cases ho : outputFiles (states start) with
      | cons g rest =>
        constructor
        · intro h; exact Option.noConfusion h
        · intro h
          exact absurd ⟨hcr, by rw [ho]; simp⟩ (h start (Nat.le_refl start) (by omega))
      | nil =>
        have hbad : ¬goodPoll states start := fun hg => hg.2 ho
        rw [ih (start + 1)]
        constructor
        · intro h i h1 h2
          rcases Nat.eq_or_lt_of_le h1 with he | hl
          · rw [← he]; exact hbad
          · exact h i hl (by omega)
        · intro h i h1 h2
          exact h i (by omega) (by omega)
    · rw [if_neg hcr]
      have hbad : ¬goodPoll states start := fun hg => hcr hg.1
      rw [ih (start + 1)]
      constructor
      · intro h i h1 h2
        rcases Nat.eq_or_lt_of_le h1 with he | hl
        · rw [← he]; exact hbad
        · exact h i hl (by omega)
      · intro h i h1 h2
        exact h i (by omega) (by omega)

theorem waitPoll_local (states states' : Nat → List String) :
    ∀ (fuel start : Nat),
      (∀ i, start ≤ i → i < start + fuel → states' i = states i) →
      waitPoll states' fuel start = waitPoll states fuel start := by
  intro fuel
  induction fuel with
  | zero => intro start _; rfl
  | succ fuel ih =>
    intro start h
    have h0 : states' start = states start := h start (Nat.le_refl start) (by omega)
    simp only [waitPoll, h0]
    rw [ih (start + 1) (fun i h1 h2 => h i (by omega) (by omega))]

/-- C8: for every timeout t and every sequence of directory states,
wait_for_download inspects at most the first t polls (its result
depends only on states 0..t-1); it returns the first output file
observed at the first poll with no .crdownload present and an output
file available, and returns None when no poll within t is such. -/
theorem c8_wait_for_download (states : Nat → List String) (timeout : Nat) :
    (∀ f : String,
      wait_for_download states timeout = some f ↔
        ∃ i, i < timeout ∧ goodPoll states i ∧
          (∀ j < i, ¬goodPoll states j) ∧
          (outputFiles (states i)).head? = some f)
    ∧ (wait_for_download states timeout = none ↔
        ∀ i < timeout, ¬goodPoll states i)
    ∧ (∀ states' : Nat → List String,
        (∀ i < timeout, states' i = states i) →
        wait_for_download states' timeout = wait_for_download states timeout) := by
  refine ⟨?_, ?_, ?_⟩
  · intro f
    unfold wait_for_download
    rw [waitPoll_eq_some states timeout 0 f]
    constructor
    · rintro ⟨i, _, h2, hgood, hmin, hhead⟩
      exact ⟨i, by omega, hgood, fun j hj => hmin j (Nat.zero_le j) hj, hhead⟩
    · rintro ⟨i, h2, hgood, hmin, hhead⟩
      exact ⟨i, Nat.zero_le i, by omega, hgood, fun j _ hj => hmin j hj, hhead⟩
  · unfold wait_for_download
    rw [waitPoll_eq_none states timeout 0]
    constructor
    · intro h i hi; exact h i (Nat.zero_le i) (by omega)
    · intro h i _ hi; exact h i (by omega)
  · intro states' h
    exact waitPoll_local states states' timeout 0
      (fun i _ h2 => h i (by omega))

/-- Witness for C8: with a .crdownload present at poll 0 and the
output file appearing at poll 1, the first output file is returned. -/
theorem c8_witness :
    wait_for_download
      (fun i => if i = 0 then ["a.crdownload"] else ["book.xtc"]) 60
      = some "book.xtc" := by
  have h := ((c8_wait_for_download
    (fun i => if i = 0 then ["a.crdownload"] else ["book.xtc"]) 60).1 "book.xtc").2
  apply h
  refine ⟨1, by omega, ⟨by decide, by decide⟩, ?_, by decide⟩
  intro j hj
  interval_cases j
  intro hg
  exact absurd hg.1 (by decide)

/-- Python `str.replace(a, b)` for single characters. -/
def replaceChar (a b : Char) (l : List Char) : List Char :=
  l.map (fun c => if c = a then b else c)

/-- Python `str.replace(a, "")` for a single character: removal. -/
def removeChar (a : Char) (l : List Char) : List Char :=
  l.filter (fun c => ¬(c = a))

/-- Python slice `s[:m]` with an int bound: a nonnegative `m` keeps
the first `m` characters, a negative `m` drops `|m|` characters from
the end. -/
def pySliceTo (l : List Char) (m : Int) : List Char :=
  if 0 ≤ m then l.take m.toNat
  else l.take (l.length - (-m).toNat)

/-- Python `str.rstrip()`: drop trailing whitespace. -/
def pyRstripL (l : List Char) : List Char :=
  (l.reverse.dropWhile isPyWs).reverse

/-- The character cleaning of sanitize_filename
(bin/scrapers/scrape_hn_to_epub.py lines 145-147): `/`, `\` and `:`
replaced by `-`; `?`, `*`, `"`, `<`, `>` and `|` removed. -/
def cleanTitle (l : List Char) : List Char :=
  removeChar '|' (removeChar '>' (removeChar '<'
    (removeChar '"' (removeChar '*' (removeChar '?'
      (replaceChar ':' '-' (replaceChar '\\' '-' (replaceChar '/' '-' l))))))))

/-- sanitize_filename (bin/scrapers/scrape_hn_to_epub.py lines
142-153): clean the characters, then truncate to max_length and
rstrip when the cleaned title is longer than max_length. -/
def sanitize_filename (title : String) (max_length : Int) : String :=
  if ((cleanTitle title.data).length : Int) > max_length then
    ⟨pyRstripL (pySliceTo (cleanTitle title.data) max_length)⟩
  else ⟨cleanTitle title.data⟩

/-- The characters sanitize_filename eliminates. -/
def badChars : List Char := ['/', '\\', ':', '?', '*', '"', '<', '>', '|']

theorem mem_of_mem_dropWhileL (p : Char → Bool) (l : List Char) (c : Char)
    (h : c ∈ l.dropWhile p) : c ∈ l := by
  induction l with
  | nil => simp at h
  | cons a as ih =>
    rw [List.dropWhile_cons] at h
    by_cases hp : p a = true
    · rw [if_pos hp] at h
      exact List.mem_cons_of_mem a (ih h)
    · rw [if_neg hp] at h
      exact h

theorem length_dropWhileL_le (p : Char → Bool) (l : List Char) :
    (l.dropWhile p).length ≤ l.length := by
  induction l with
  | nil => exact Nat.le_refl 0
  | cons a as ih =>
    rw [List.dropWhile_cons]
    by_cases hp : p a = true
    · rw [if_pos hp]
      exact Nat.le_trans ih (by simp)
    · rw [if_neg hp]

theorem mem_of_mem_takeL (l : List Char) (n : Nat) (c : Char)
    (h : c ∈ l.take n) : c ∈ l := by
  induction l generalizing n with
  | nil => simp at h
  | cons a as ih =>
    cases n with
    | zero => simp at h
    | succ n =>
      rw [List.take_succ_cons] at h
      rcases List.mem_cons.1 h with hh | hh
      · rw [hh]; exact List.mem_cons_self a as
      · exact List.mem_cons_of_mem a (ih n hh)

theorem mem_removeChar (a : Char) (l : List Char) (c : Char) :
    c ∈ removeChar a l ↔ c ∈ l ∧ ¬(c = a) := by
  simp [removeChar, List.mem_filter]

theorem mem_replaceChar (a b : Char) (l : List Char) (c : Char)
    (h : c ∈ replaceChar a b l) : c = b ∨ (c ∈ l ∧ ¬(c = a)) := by
  simp only [replaceChar, List.mem_map] at h
  rcases h with ⟨x, hx, he⟩
  by_cases hxa : x = a
  · rw [if_pos hxa] at he
    exact Or.inl he.symm
  · rw [if_neg hxa] at he
    subst he
    exact Or.inr ⟨hx, hxa⟩

theorem replaceChar_eq_self (a b : Char) (l : List Char) (h : a ∉ l) :
    replaceChar a b l = l := by
  unfold replaceChar
  rw [show l.map (fun c => if c = a then b else c) = l.map id by
    apply List.map_congr_left
    intro x hx
    have hxa : ¬(x = a) := fun he => h (by rw [← he]; exact hx)
    rw [if_neg hxa]
    rfl]
  exact List.map_id l

theorem removeChar_eq_self (a : Char) (l : List Char) (h : a ∉ l) :
    removeChar a l = l := by
  unfold removeChar
  rw [List.filter_eq_self]
  intro c hc
  simp only [decide_not, Bool.not_eq_true', decide_eq_false_iff_not]
  exact fun he => h (he ▸ hc)

theorem cleanTitle_no_bad (l : List Char) :
    ∀ c ∈ cleanTitle l, c ∉ badChars := by
  intro c hc
  unfold cleanTitle at hc
  rw [mem_removeChar] at hc
  obtain ⟨hc, hpipe⟩ := hc
  rw [mem_removeChar] at hc
  obtain ⟨hc, hgt⟩ := hc
  rw [mem_removeChar] at hc
  obtain ⟨hc, hlt⟩ := hc
  rw [mem_removeChar] at hc
  obtain ⟨hc, hquot⟩ := hc
  rw [mem_removeChar] at hc
  obtain ⟨hc, hstar⟩ := hc
  rw [mem_removeChar] at hc
  obtain ⟨hc, hq⟩ := hc
  rcases mem_replaceChar _ _ _ _ hc with hdash | ⟨hc, hcolon⟩
  · rw [hdash]; decide
  rcases mem_replaceChar _ _ _ _ hc with hdash | ⟨hc, hbsl⟩
  · rw [hdash]; decide
  rcases mem_replaceChar _ _ _ _ hc with hdash | ⟨hc, hsl⟩
  · rw [hdash]; decide
  simp only [badChars, List.mem_cons, List.not_mem_nil]
  rintro (h | h | h | h | h | h | h | h | h | h) <;>
    first
      | exact hsl h
      | exact hbsl h
      | exact hcolon h
      | exact hq h
      | exact hstar h
      | exact hquot h
      | exact hlt h
      | exact hgt h
      | exact hpipe h
      | exact h

theorem cleanTitle_eq_self (l : List Char) (h : ∀ c ∈ l, c ∉ badChars) :
    cleanTitle l = l := by
  have hx : ∀ x : Char, x ∈ badChars → x ∉ l := by
    intro x hxb hxl
    exact h x hxl hxb
  unfold cleanTitle
  rw [replaceChar_eq_self '/' '-' l (hx '/' (by decide))]
  rw [replaceChar_eq_self '\\' '-' l (hx '\\' (by decide))]
  rw [replaceChar_eq_self ':' '-' l (hx ':' (by decide))]
  rw [removeChar_eq_self '?' l (hx '?' (by decide))]
  rw [removeChar_eq_self '*' l (hx '*' (by decide))]
  rw [removeChar_eq_self '"' l (hx '"' (by decide))]
  rw [removeChar_eq_self '<' l (hx '<' (by decide))]
  rw [removeChar_eq_self '>' l (hx '>' (by decide))]
  rw [removeChar_eq_self '|' l (hx '|' (by decide))]

/-- Counterexample to C9 as stated: the claim quantifies over every
max_length, but for the negative value -1 Python's slice drops from
the end and the result "a" is longer than max_length. -/
theorem c9_counterexample :
    sanitize_filename "ab" (-1) = "a"
    ∧ ¬(((sanitize_filename "ab" (-1)).data.length : Int) ≤ -1) := by
  constructor
  · decide
  · decide

/-- C9 (amended to nonnegative max_length): sanitize_filename returns
a string of length at most max_length containing none of the unsafe
characters, and a title already free of them and no longer than
max_length is returned unchanged. -/
theorem c9_sanitize_filename (title : String) (max_length : Int)
    (hm : 0 ≤ max_length) :
    ((sanitize_filename title max_length).data.length : Int) ≤ max_length
    ∧ (∀ c ∈ (sanitize_filename title max_length).data, c ∉ badChars)
    ∧ ((∀ c ∈ title.data, c ∉ badChars) →
        (title.data.length : Int) ≤ max_length →
        sanitize_filename title max_length = title) := by
  refine ⟨?_, ?_, ?_⟩
  · unfold sanitize_filename
    by_cases hlen : ((cleanTitle title.data).length : Int) > max_length
    · rw [if_pos hlen]
      show ((pyRstripL (pySliceTo (cleanTitle title.data) max_length)).length : Int)
        ≤ max_length
      have h1 : (pyRstripL (pySliceTo (cleanTitle title.data) max_length)).length
          ≤ (pySliceTo (cleanTitle title.data) max_length).length := by
        unfold pyRstripL
        rw [List.length_reverse]
        refine Nat.le_trans (length_dropWhileL_le _ _) ?_
        rw [List.length_reverse]
      have h2 : (pySliceTo (cleanTitle title.data) max_length).length
          ≤ max_length.toNat := by
        unfold pySliceTo
        rw [if_pos hm]
        simp [List.length_take]
      omega
    · rw [if_neg hlen]
      show ((cleanTitle title.data).length : Int) ≤ max_length
      omega
  · unfold sanitize_filename
    by_cases hlen : ((cleanTitle title.data).length : Int) > max_length
    · rw [if_pos hlen]
      intro c hc
      apply cleanTitle_no_bad title.data
      have hc0 : c ∈ (pySliceTo (cleanTitle title.data) max_length).reverse :=
        mem_of_mem_dropWhileL isPyWs _ c (List.mem_reverse.1 hc)
      have hc1 : c ∈ pySliceTo (cleanTitle title.data) max_length :=
        List.mem_reverse.1 hc0
      unfold pySliceTo at hc1
      split at hc1 <;> exact mem_of_mem_takeL _ _ _ hc1
    · rw [if_neg hlen]
      intro c hc
      exact cleanTitle_no_bad title.data c hc
  · intro hclean hshort
    unfold sanitize_filename
    rw [cleanTitle_eq_self title.data hclean]
    rw [if_neg (by omega)]

/-- Witness for the amended C9: a concrete title with unsafe
characters at bound 3, and an already-clean short title unchanged. -/
theorem c9_witness :
    ((sanitize_filename "a/b:c" 3).data.length : Int) ≤ 3
    ∧ (∀ c ∈ (sanitize_filename "a/b:c" 3).data, c ∉ badChars)
    ∧ sanitize_filename "ab" 5 = "ab" :=
  ⟨(c9_sanitize_filename "a/b:c" 3 (by decide)).1,
    (c9_sanitize_filename "a/b:c" 3 (by decide)).2.1,
    (c9_sanitize_filename "ab" 5 (by decide)).2.2 (by decide) (by decide)⟩

/-- The twelve full English month names of the date pattern in
is_date_title (bin/scrapers/scrape_hcr_to_epub.py line 26). -/
def englishMonths : List String :=
  ["January", "February", "March", "April", "May", "June", "July",
   "August", "September", "October", "November", "December"]

/-- Python `$` in re.match: end of string, or immediately before one
newline that ends the string. -/
def matchEnd (l : List Char) : Bool :=
  match l with
  | [] => true
  | c :: rest => c = '\n' && rest.isEmpty

/-- `\d{4}$`: exactly four digits then the end anchor. -/
def matchYear (l : List Char) : Bool :=
  match l with
  | y₁ :: y₂ :: y₃ :: y₄ :: rest =>
    isAsciiDigit y₁ && isAsciiDigit y₂ && isAsciiDigit y₃ && isAsciiDigit y₄ &&
      matchEnd rest
  | _ => false

/-- `\s+\d{4}$`: at least one whitespace (the run is consumed
greedily; digits are not whitespace, so no backtracking arises), then
the year. -/
def matchYearWs (l : List Char) : Bool :=
  match l with
  | c :: rest => if isPyWs c then matchYear (rest.dropWhile isPyWs) else false
  | [] => false

/-- `\d{1,2},` with the regex engine's backtracking: two digits are
kept only when a comma follows, otherwise one digit followed by a
comma. -/
def matchDay : List Char → Bool
  | d₁ :: c₂ :: c₃ :: rest₃ =>
    if isAsciiDigit d₁ then
      if isAsciiDigit c₂ then (if c₃ = ',' then matchYearWs rest₃ else false)
      else if c₂ = ',' then matchYearWs (c₃ :: rest₃)
      else false
    else false
  | [d₁, c₂] =>
    if isAsciiDigit d₁ then
      if isAsciiDigit c₂ then false
      else if c₂ = ',' then matchYearWs [] else false
    else false
  | _ => false

/-- `\s+` after the month name, then the day. -/
def matchAfterMonth (l : List Char) : Bool :=
  match l with
  | c :: rest => if isPyWs c then matchDay (rest.dropWhile isPyWs) else false
  | [] => false

/-- is_date_title (bin/scrapers/scrape_hcr_to_epub.py lines 23-27):
re.match of
`^(January|...|December)\s+\d{1,2},\s+\d{4}$`
against the title, compiled for this fixed pattern (`\s`/`\d` taken on
the ASCII range the titles use; `$` has Python's before-trailing-
newline semantics). -/
def is_date_title (s : String) : Bool :=
  englishMonths.any (fun m =>
    m.data.isPrefixOf s.data && matchAfterMonth (s.data.drop m.data.length))

/-- The claim's literal reading of the accepted titles: a full month
name, one space, a 1-2 digit day, a comma and one space, a 4-digit
year, with nothing before the month or after the year. -/
def dateTitleLiteral (s : String) : Prop :=
  ∃ m d y : String, m ∈ englishMonths
    ∧ d.data ≠ [] ∧ d.data.length ≤ 2 ∧ (∀ c ∈ d.data, isAsciiDigit c = true)
    ∧ y.data.length = 4 ∧ (∀ c ∈ y.data, isAsciiDigit c = true)
    ∧ s = m ++ " " ++ d ++ ", " ++ y

/-- What the code actually accepts: month name, a nonempty whitespace
run, 1-2 digit day, comma, a nonempty whitespace run, 4-digit year,
and an optional single trailing newline. -/
def dateTitleAmended (s : String) : Prop :=
  ∃ (m : String) (w₁ d w₂ y nl : List Char),
    m ∈ englishMonths
    ∧ w₁ ≠ [] ∧ (∀ c ∈ w₁, isPyWs c = true)
    ∧ (d.length = 1 ∨ d.length = 2) ∧ (∀ c ∈ d, isAsciiDigit c = true)
    ∧ w₂ ≠ [] ∧ (∀ c ∈ w₂, isPyWs c = true)
    ∧ y.length = 4 ∧ (∀ c ∈ y, isAsciiDigit c = true)
    ∧ (nl = [] ∨ nl = ['\n'])
    ∧ s.data = m.data ++ w₁ ++ d ++ ',' :: (w₂ ++ y ++ nl)

theorem exists_of_isPrefixOf : ∀ (a l : List Char), a.isPrefixOf l = true →
    ∃ b, l = a ++ b := by
  intro a
  induction a with
  | nil => intro l _; exact ⟨l, rfl⟩
  | cons c cs ih =>
    intro l h
    cases l with
    | nil => simp [List.isPrefixOf] at h
    | cons x xs =>
      simp only [List.isPrefixOf, Bool.and_eq_true, beq_iff_eq] at h
      rcases ih xs h.2 with ⟨b, hb⟩
      exact ⟨b, by rw [h.1, hb]; rfl⟩

theorem mem_takeWhile_true (p : Char → Bool) (l : List Char) (c : Char)
    (h : c ∈ l.takeWhile p) : p c = true := by
  induction l with
  | nil => simp at h
  | cons a as ih =>
    rw [List.takeWhile_cons] at h
    by_cases hp : p a = true
    · rw [if_pos hp] at h
      rcases List.mem_cons.1 h with hh | hh
      · rw [hh]; exact hp
      · exact ih hh
    · rw [if_neg hp] at h
      simp at h

theorem dropWhile_append_all (p : Char → Bool) (a b : List Char)
    (ha : ∀ c ∈ a, p c = true) : (a ++ b).dropWhile p = b.dropWhile p := by
  induction a with
  | nil => rfl
  | cons c cs ih =>
    rw [List.cons_append, List.dropWhile_cons, if_pos (ha c (List.mem_cons_self c cs))]
    exact ih (fun x hx => ha x (List.mem_cons_of_mem c hx))

theorem getLast?_append_right (l₁ l₂ : List Char) (h : l₂ ≠ []) :
    (l₁ ++ l₂).getLast? = l₂.getLast? := by
  rw [← List.head?_reverse, ← List.head?_reverse, List.reverse_append]
  cases hr : l₂.reverse with
  | nil => exact absurd (by simpa using hr) h
  | cons x rest => simp

theorem mem_of_getLast?_eq (l : List Char) (c : Char) (h : l.getLast? = some c) :
    c ∈ l := by
  rw [← List.head?_reverse] at h
  cases hr : l.reverse with
  | nil => rw [hr] at h; exact Option.noConfusion h
  | cons x rest =>
    rw [hr] at h
    simp only [List.head?_cons, Option.some.injEq] at h
    refine List.mem_reverse.1 ?_
    rw [hr, ← h]
    exact List.mem_cons_self x rest

theorem matchEnd_spec (l : List Char) (h : matchEnd l = true) :
    l = [] ∨ l = ['\n'] := by
  cases l with
  | nil => exact Or.inl rfl
  | cons c rest =>
    cases rest with
    | nil =>
      simp only [matchEnd, List.isEmpty_nil, Bool.and_true, decide_eq_true_eq] at h
      exact Or.inr (by rw [h])
    | cons c₂ rest₂ => simp [matchEnd] at h

theorem matchEnd_of (nl : List Char) (h : nl = [] ∨ nl = ['\n']) :
    matchEnd nl = true := by
  rcases h with h | h <;> rw [h] <;> rfl

theorem matchYear_spec (l : List Char) (h : matchYear l = true) :
    ∃ y nl : List Char, y.length = 4 ∧ (∀ c ∈ y, isAsciiDigit c = true)
      ∧ (nl = [] ∨ nl = ['\n']) ∧ l = y ++ nl := by
  rcases l with _ | ⟨y₁, _ | ⟨y₂, _ | ⟨y₃, _ | ⟨y₄, rest⟩⟩⟩⟩
  · exact Bool.noConfusion h
  · exact Bool.noConfusion h
  · exact Bool.noConfusion h
  · exact Bool.noConfusion h
  · have h' : (isAsciiDigit y₁ && isAsciiDigit y₂ && isAsciiDigit y₃ &&
        isAsciiDigit y₄ && matchEnd rest) = true := h
    simp only [Bool.and_eq_true] at h'
    obtain ⟨⟨⟨⟨h1, h2⟩, h3⟩, h4⟩, h5⟩ := h'
    refine ⟨[y₁, y₂, y₃, y₄], rest, rfl, ?_, matchEnd_spec rest h5, rfl⟩
    intro c hc
    simp only [List.mem_cons, List.not_mem_nil, or_false] at hc
    rcases hc with hc | hc | hc | hc <;> (subst hc; assumption)

theorem matchYear_of (y nl : List Char) (hy4 : y.length = 4)
    (hyd : ∀ c ∈ y, isAsciiDigit c = true) (hnl : nl = [] ∨ nl = ['\n']) :
    matchYear (y ++ nl) = true := by
  rcases y with _ | ⟨y₁, _ | ⟨y₂, _ | ⟨y₃, _ | ⟨y₄, rest⟩⟩⟩⟩ <;> simp at hy4
  have hrest : rest = [] := by simpa using hy4
  subst hrest
  simp only [List.cons_append, List.nil_append, matchYear, Bool.and_eq_true]
  refine ⟨⟨⟨⟨?_, ?_⟩, ?_⟩, ?_⟩, matchEnd_of nl hnl⟩ <;> apply hyd <;> simp

theorem matchYearWs_spec (l : List Char) (h : matchYearWs l = true) :
    ∃ w₂ rest : List Char, w₂ ≠ [] ∧ (∀ c ∈ w₂, isPyWs c = true)
      ∧ matchYear rest = true ∧ l = w₂ ++ rest := by
  cases l with
  | nil => simp [matchYearWs] at h
  | cons c rest' =>
    simp only [matchYearWs] at h
    by_cases hc : isPyWs c = true
    · rw [if_pos hc] at h
      refine ⟨c :: rest'.takeWhile isPyWs, rest'.dropWhile isPyWs, by simp, ?_, h, ?_⟩
      · intro x hx
        rcases List.mem_cons.1 hx with hh | hh
        · rw [hh]; exact hc
        · exact mem_takeWhile_true isPyWs rest' x hh
      · rw [List.cons_append, List.takeWhile_append_dropWhile]
    · rw [if_neg hc] at h
      exact Bool.noConfusion h

theorem matchYearWs_of (w₂ y nl : List Char) (hw : w₂ ≠ [])
    (hws : ∀ c ∈ w₂, isPyWs c = true) (hy4 : y.length = 4)
    (hyd : ∀ c ∈ y, isAsciiDigit c = true) (hnl : nl = [] ∨ nl = ['\n']) :
    matchYearWs (w₂ ++ y ++ nl) = true := by
  cases w₂ with
  | nil => exact absurd rfl hw
  | cons wc w₂' =>
    have hwc : isPyWs wc = true := hws wc (List.mem_cons_self wc w₂')
    simp only [List.cons_append, matchYearWs, if_pos hwc]
    rw [List.append_assoc]
    rw [dropWhile_append_all isPyWs w₂' (y ++ nl)
      (fun x hx => hws x (List.mem_cons_of_mem wc hx))]
    cases y with
    | nil => simp at hy4
    | cons y₁ ys =>
      rw [List.cons_append, List.dropWhile_cons,
        if_neg (by rw [digit_not_ws y₁ (hyd y₁ (List.mem_cons_self y₁ ys))]; simp)]
      exact matchYear_of (y₁ :: ys) nl hy4 hyd hnl

theorem matchDay_spec (l : List Char) (h : matchDay l = true) :
    ∃ d rest : List Char, (d.length = 1 ∨ d.length = 2)
      ∧ (∀ c ∈ d, isAsciiDigit c = true)
      ∧ matchYearWs rest = true ∧ l = d ++ ',' :: rest := by
  rcases l with _ | ⟨d₁, _ | ⟨c₂, _ | ⟨c₃, rest₃⟩⟩⟩
  · exact Bool.noConfusion h
  · exact Bool.noConfusion h
  · have h' : (if isAsciiDigit d₁ then
        if isAsciiDigit c₂ then false
        else if c₂ = ',' then matchYearWs [] else false
      else false) = true := h
    by_cases h1 : isAsciiDigit d₁ = true
    · rw [if_pos h1] at h'
      by_cases h2 : isAsciiDigit c₂ = true
      · rw [if_pos h2] at h'
        exact Bool.noConfusion h'
      · rw [if_neg h2] at h'
        by_cases h3 : c₂ = ','
        · rw [if_pos h3] at h'
          exact Bool.noConfusion h'
        · rw [if_neg h3] at h'
          exact Bool.noConfusion h'
    · rw [if_neg h1] at h'
      exact Bool.noConfusion h'
  · have h' : (if isAsciiDigit d₁ then
        if isAsciiDigit c₂ then (if c₃ = ',' then matchYearWs rest₃ else false)
        else if c₂ = ',' then matchYearWs (c₃ :: rest₃)
        else false
      else false) = true := h
    by_cases h1 : isAsciiDigit d₁ = true
    · rw [if_pos h1] at h'
      by_cases h2 : isAsciiDigit c₂ = true
      · rw [if_pos h2] at h'
        by_cases h3 : c₃ = ','
        · rw [if_pos h3] at h'
          refine ⟨[d₁, c₂], rest₃, Or.inr rfl, ?_, h', by rw [h3]; rfl⟩
          intro c hc
          simp only [List.mem_cons, List.not_mem_nil, or_false] at hc
          rcases hc with hc | hc <;> (subst hc; assumption)
        · rw [if_neg h3] at h'
          exact Bool.noConfusion h'
      · rw [if_neg h2] at h'
        by_cases h3 : c₂ = ','
        · rw [if_pos h3] at h'
          refine ⟨[d₁], c₃ :: rest₃, Or.inl rfl, ?_, h', by rw [h3]; rfl⟩
          intro c hc
          simp only [List.mem_cons, List.not_mem_nil, or_false] at hc
          subst hc
          exact h1
        · rw [if_neg h3] at h'
          exact Bool.noConfusion h'
    · rw [if_neg h1] at h'
      exact Bool.noConfusion h'

theorem matchDay_of (d rest : List Char) (hd : d.length = 1 ∨ d.length = 2)
    (hdig : ∀ c ∈ d, isAsciiDigit c = true) (hy : matchYearWs rest = true) :
    matchDay (d ++ ',' :: rest) = true := by
  cases rest with
  | nil => exact Bool.noConfusion hy
  | cons rc rrest =>
    have hcomma : ¬(isAsciiDigit ',' = true) := by decide
    rcases d with _ | ⟨d₁, _ | ⟨d₂, _ | ⟨d₃, tail⟩⟩⟩
    · simp at hd
    · show matchDay (d₁ :: ',' :: rc :: rrest) = true
      have h1 : isAsciiDigit d₁ = true := hdig d₁ (List.mem_cons_self d₁ [])
      show (if isAsciiDigit d₁ then
          if isAsciiDigit ',' then (if rc = ',' then matchYearWs rrest else false)
          else if ',' = ',' then matchYearWs (rc :: rrest)
          else false
        else false) = true
      rw [if_pos h1, if_neg hcomma, if_pos rfl]
      exact hy
    · show matchDay (d₁ :: d₂ :: ',' :: (rc :: rrest)) = true
      have h1 : isAsciiDigit d₁ = true := hdig d₁ (by simp)
      have h2 : isAsciiDigit d₂ = true := hdig d₂ (by simp)
      show (if isAsciiDigit d₁ then
          if isAsciiDigit d₂ then
            (if ',' = ',' then matchYearWs (rc :: rrest) else false)
          else if d₂ = ',' then matchYearWs (',' :: rc :: rrest)
          else false
        else false) = true
      rw [if_pos h1, if_pos h2, if_pos rfl]
      exact hy
    · simp at hd

theorem matchAfterMonth_spec (l : List Char) (h : matchAfterMonth l = true) :
    ∃ w₁ rest : List Char, w₁ ≠ [] ∧ (∀ c ∈ w₁, isPyWs c = true)
      ∧ matchDay rest = true ∧ l = w₁ ++ rest := by
  cases l with
  | nil => exact Bool.noConfusion h
  | cons c rest' =>
    simp only [matchAfterMonth] at h
    by_cases hc : isPyWs c = true
    · rw [if_pos hc] at h
      refine ⟨c :: rest'.takeWhile isPyWs, rest'.dropWhile isPyWs, by simp, ?_, h, ?_⟩
      · intro x hx
        rcases List.mem_cons.1 hx with hh | hh
        · rw [hh]; exact hc
        · exact mem_takeWhile_true isPyWs rest' x hh
      · rw [List.cons_append, List.takeWhile_append_dropWhile]
    · rw [if_neg hc] at h
      exact Bool.noConfusion h

theorem matchAfterMonth_of (w₁ rest : List Char) (hw : w₁ ≠ [])
    (hws : ∀ c ∈ w₁, isPyWs c = true) (hrest : matchDay rest = true)
    (hhead : rest.dropWhile isPyWs = rest) :
    matchAfterMonth (w₁ ++ rest) = true := by
  cases w₁ with
  | nil => exact absurd rfl hw
  | cons wc w₁' =>
    have hwc : isPyWs wc = true := hws wc (List.mem_cons_self wc w₁')
    simp only [List.cons_append, matchAfterMonth, if_pos hwc]
    rw [dropWhile_append_all isPyWs w₁' rest
      (fun x hx => hws x (List.mem_cons_of_mem wc hx))]
    rw [hhead]
    exact hrest

/-- Counterexample to C5 as stated: Python re.match's `$` also matches
just before a trailing newline, so the code accepts a title with a
newline after the year although the claim requires nothing after the
year. -/
theorem c5_counterexample :
    is_date_title "January 1, 2024\n" = true
    ∧ ¬dateTitleLiteral "January 1, 2024\n" := by
  constructor
  · decide
  · rintro ⟨m, d, y, hm, hdne, hdlen, hddig, hy4, hydig, heq⟩
    have hdata := congrArg String.data heq
    simp only [String.data_append] at hdata
    have hyne : y.data ≠ [] := by
      intro hy
      rw [hy] at hy4
      simp at hy4
    have hlast : ("January 1, 2024\n").data.getLast? = y.data.getLast? := by
      have h2 : ("January 1, 2024\n").data
          = m.data ++ [' '] ++ d.data ++ [',', ' '] ++ y.data := hdata
      rw [h2]
      exact getLast?_append_right _ _ hyne
    have hlast2 : ("January 1, 2024\n").data.getLast? = some '\n' := by decide
    rw [hlast2] at hlast
    have hmem := mem_of_getLast?_eq y.data '\n' hlast.symm
    have hdig := hydig '\n' hmem
    exact absurd hdig (by decide)

/-- C5 (amended): is_date_title returns True exactly for titles of the
form month name, nonempty whitespace run, one- or two-digit day,
comma, nonempty whitespace run, four-digit year, with nothing before
the month name and at most a single trailing newline after the year
(the regex's `\s+` accepts any whitespace runs and re.match's `$`
accepts one final newline). -/
theorem c5_is_date_title (s : String) :
    is_date_title s = true ↔ dateTitleAmended s := by
  constructor
  · intro h
    simp only [is_date_title, List.any_eq_true, Bool.and_eq_true] at h
    obtain ⟨m, hm, hpre, hmatch⟩ := h
    obtain ⟨rest0, hrest0⟩ := exists_of_isPrefixOf m.data s.data hpre
    rw [hrest0, List.drop_left] at hmatch
    obtain ⟨w₁, rest1, hw1ne, hw1ws, hday, he1⟩ := matchAfterMonth_spec rest0 hmatch
    obtain ⟨d, rest2, hdlen, hddig, hyws, he2⟩ := matchDay_spec rest1 hday
    obtain ⟨w₂, rest3, hw2ne, hw2ws, hyear, he3⟩ := matchYearWs_spec rest2 hyws
    obtain ⟨y, nl, hy4, hydig, hnl, he4⟩ := matchYear_spec rest3 hyear
    refine ⟨m, w₁, d, w₂, y, nl, hm, hw1ne, hw1ws, hdlen, hddig, hw2ne, hw2ws,
      hy4, hydig, hnl, ?_⟩
    rw [hrest0, he1, he2, he3, he4]
    simp [List.append_assoc]
  · rintro ⟨m, w₁, d, w₂, y, nl, hm, hw1ne, hw1ws, hdlen, hddig, hw2ne, hw2ws,
      hy4, hydig, hnl, heq⟩
    simp only [is_date_title, List.any_eq_true, Bool.and_eq_true]
    refine ⟨m, hm, ?_, ?_⟩
    · rw [heq]
      rw [show m.data ++ w₁ ++ d ++ ',' :: (w₂ ++ y ++ nl)
          = m.data ++ (w₁ ++ d ++ ',' :: (w₂ ++ y ++ nl)) by
        simp [List.append_assoc]]
      exact isPrefixOf_append_self _ _
    · rw [heq]
      rw [show m.data ++ w₁ ++ d ++ ',' :: (w₂ ++ y ++ nl)
          = m.data ++ (w₁ ++ (d ++ ',' :: (w₂ ++ (y ++ nl)))) by
        simp [List.append_assoc]]
      rw [List.drop_left]
      apply matchAfterMonth_of _ _ hw1ne hw1ws
      · exact matchDay_of d (w₂ ++ (y ++ nl)) hdlen hddig
          (by rw [← List.append_assoc]
              exact matchYearWs_of w₂ y nl hw2ne hw2ws hy4 hydig hnl)
      · cases d with
        | nil => rcases hdlen with hh | hh <;> simp at hh
        | cons d₁ ds =>
          rw [List.cons_append, List.dropWhile_cons,
            if_neg (by rw [digit_not_ws d₁ (hddig d₁ (List.mem_cons_self d₁ ds))]
                       simp)]

/-- Witness for C5 at a concrete accepted title. -/
theorem c5_witness : is_date_title "January 1, 2024" = true :=
  (c5_is_date_title "January 1, 2024").2
    ⟨"January", [' '], ['1'], [' '], "2024".data, [],
      by decide, by decide, by decide, by decide, by decide, by decide,
      by decide, by decide, by decide, Or.inl rfl, by decide⟩

/-- The observable features of a fetched post page that is_full_letter
(bin/scrapers/scrape_hcr_to_epub.py lines 116-148) branches on, with
the BeautifulSoup queries evaluated: whether soup.find("audio") or a
podcast-class element was found, whether soup.find("video") or a
video-class element was found, and the stripped text of the located
content element (`none` when neither the content div nor an article
was found). -/
structure PostPage where
  hasAudio : Bool
  hasPodcastClass : Bool
  hasVideo : Bool
  hasVideoClass : Bool
  contentText : Option String

/-- Word counting of Python `len(text.split())`: the number of maximal
nonempty runs of non-whitespace characters.  The flag records whether
the previous character was part of a word. -/
def countWords : List Char → Bool → Nat
  | [], _ => 0
  | c :: cs, inWord =>
    if isPyWs c then countWords cs false
    else (if inWord then 0 else 1) + countWords cs true

/-- `len(text.split())`. -/
def wordCount (s : String) : Nat :=
  countWords s.data false

/-- is_full_letter (bin/scrapers/scrape_hcr_to_epub.py lines 116-148):
reject pages with a podcast or video indicator, reject pages without a
content element, and otherwise accept exactly when the word count
exceeds min_word_count.  (The requests exception path also returns
False; it never reaches these checks.) -/
def is_full_letter (page : PostPage) (min_word_count : Nat) : Bool :=
  if page.hasAudio || page.hasPodcastClass then false
  else if page.hasVideo || page.hasVideoClass then false
  else
    match page.contentText with
    | none => false
    | some text => decide (wordCount text > min_word_count)

/-- C6: for a post page with no audio/podcast and no video indicator
and a found content element, is_full_letter accepts exactly when the
whitespace-separated word count strictly exceeds min_word_count; a
word count equal to min_word_count is rejected. -/
theorem c6_word_count_threshold (page : PostPage) (min_word_count : Nat)
    (text : String)
    (ha : page.hasAudio = false) (hp : page.hasPodcastClass = false)
    (hv : page.hasVideo = false) (hvc : page.hasVideoClass = false)
    (hc : page.contentText = some text) :
    (is_full_letter page min_word_count = true ↔
      wordCount text > min_word_count)
    ∧ (wordCount text = min_word_count →
      is_full_letter page min_word_count = false) := by
  have he : is_full_letter page min_word_count
      = decide (wordCount text > min_word_count) := by
    unfold is_full_letter
    rw [ha, hp, hv, hvc, hc]
    rfl
  constructor
  · rw [he]
    simp
  · intro heq
    rw [he]
    simp [heq]

/-- Witness for C6: three words against thresholds 3 (equal: rejected)
and 2 (exceeded: accepted). -/
theorem c6_witness :
    is_full_letter ⟨false, false, false, false, some "one two three"⟩ 3 = false
    ∧ is_full_letter ⟨false, false, false, false, some "one two three"⟩ 2 = true :=
  ⟨(c6_word_count_threshold ⟨false, false, false, false, some "one two three"⟩
      3 "one two three" rfl rfl rfl rfl rfl).2 (by decide),
    (c6_word_count_threshold ⟨false, false, false, false, some "one two three"⟩
      2 "one two three" rfl rfl rfl rfl rfl).1.2 (by decide)⟩

/-- The descendant-deduplication filter of fetch_article_content
(bin/scrapers/scrape_hn_to_epub.py lines 104-113), over an abstract
element type with decidable equality (BeautifulSoup tags compare by
value) and a decidable test `desc e o` modelling
`element in other.descendants`: an element is kept unless some other
element of the list has it among its descendants. -/
def dedupFilter {α : Type} [DecidableEq α] (desc : α → α → Bool)
    (all_elements : List α) : List α :=
  all_elements.filter (fun element =>
    !(all_elements.any (fun other => other ≠ element && desc element other)))

/-- C7: the filter keeps exactly the elements that are descendants of
no other element of the list; consequently (because no DOM element is
among its own descendants) no kept element is nested inside another
kept element, and every listed element nested inside a kept element
is excluded. -/
theorem c7_dedup_filter {α : Type} [DecidableEq α] (desc : α → α → Bool)
    (all : List α) (hirr : ∀ x, desc x x = false) :
    (∀ e, e ∈ dedupFilter desc all ↔
      (e ∈ all ∧ ∀ o ∈ all, o ≠ e → desc e o = false))
    ∧ (∀ k₁ k₂, k₁ ∈ dedupFilter desc all → k₂ ∈ dedupFilter desc all →
        desc k₁ k₂ = false)
    ∧ (∀ e k, e ∈ all → k ∈ dedupFilter desc all → desc e k = true →
        e ∉ dedupFilter desc all) := by
  have any_false_iff : ∀ (p : α → Bool) (l : List α),
      l.any p = false ↔ ∀ x ∈ l, p x = false := by
    intro p l
    induction l with
    | nil =>
      constructor
      · intro _ x hx; simp at hx
      · intro _; rfl
    | cons a as ih =>
      rw [List.any_cons]
      constructor
      · intro h
        cases hpa : p a with
        | true => rw [hpa] at h; exact Bool.noConfusion h
        | false =>
          rw [hpa] at h
          simp only [Bool.false_or] at h
          intro x hx
          rcases List.mem_cons.1 hx with hh | hh
          · rw [hh]; exact hpa
          · exact ih.1 h x hh
      · intro h
        rw [h a (List.mem_cons_self a as),
          ih.2 (fun x hx => h x (List.mem_cons_of_mem a hx))]
        rfl
  have hmem : ∀ e, e ∈ dedupFilter desc all ↔
      (e ∈ all ∧ ∀ o ∈ all, o ≠ e → desc e o = false) := by
    intro e
    unfold dedupFilter
    rw [List.mem_filter]
    have hb : (!(all.any fun other => other ≠ e && desc e other)) = true ↔
        (all.any fun other => other ≠ e && desc e other) = false := by
      cases all.any fun other => other ≠ e && desc e other <;> simp
    constructor
    · rintro ⟨h1, h2⟩
      refine ⟨h1, ?_⟩
      have h3 := (any_false_iff _ all).1 (hb.1 h2)
      intro o ho hne
      have hh := h3 o ho
      cases hd : desc e o with
      | false => rfl
      | true =>
        rw [hd] at hh
        simp only [Bool.and_true] at hh
        rw [decide_eq_false_iff_not] at hh
        exact absurd (not_not.1 hh) hne
    · rintro ⟨h1, h2⟩
      refine ⟨h1, hb.2 ((any_false_iff _ all).2 ?_)⟩
      intro o ho
      by_cases hne : o = e
      · simp [hne]
      · rw [h2 o ho hne]
        simp
  refine ⟨hmem, ?_, ?_⟩
  · intro k₁ k₂ h1 h2
    by_cases hne : k₂ = k₁
    · rw [hne]
      exact hirr k₁
    · exact ((hmem k₁).1 h1).2 k₂ ((hmem k₂).1 h2).1 hne
  · intro e k he hk hdesc hmem_e
    by_cases hne : k = e
    · rw [hne] at hdesc
      rw [hirr e] at hdesc
      exact Bool.noConfusion hdesc
    · have := ((hmem e).1 hmem_e).2 k ((hmem k).1 hk).1 hne
      rw [this] at hdesc
      exact Bool.noConfusion hdesc

/-- Witness for C7 over two elements of Fin 2 where element 1 is a
descendant of element 0: the nested element is dropped, its ancestor
kept. -/
theorem c7_witness :
    ((0 : Fin 2) ∈ dedupFilter (fun x y => x == 1 && y == 0) [0, 1]
      ∧ (1 : Fin 2) ∉ dedupFilter (fun x y => x == 1 && y == 0) [0, 1]) := by
  constructor
  · exact ((c7_dedup_filter (fun x y : Fin 2 => x == 1 && y == 0) [0, 1]
      (by decide)).1 0).2 ⟨by decide, by decide⟩
  · exact (c7_dedup_filter (fun x y : Fin 2 => x == 1 && y == 0) [0, 1]
      (by decide)).2.2 1 0 (by decide) (by decide) (by decide)

/-- `CORE_CONFIG_CATEGORIES` (bin/utils/ui_helpers.py lines 14-44), in
the source's insertion order. -/
def CORE_CONFIG_CATEGORIES : List (String × List String) :=
  [("WiFi Network Settings",
    ["EPAPER_NETWORK", "WIFI_INTERFACE", "ORIGINAL_NETWORK_FALLBACK"]),
   ("Network Timing Configuration (seconds)",
    ["CONNECTION_WAIT_TIME", "MAX_RETRIES", "RETRY_DELAY", "EPAPER_TIMEOUT"]),
   ("E-Paper Device Settings",
    ["EPAPER_DEVICE_IP", "EPAPER_UPLOAD_ENDPOINT"]),
   ("Directory Configuration",
    ["TEXTS_DIR", "SD_CARD_PATH"]),
   ("Upload Configuration",
    ["UPLOAD_TIMEOUT", "UPLOAD_DELAY_SECONDS"]),
   ("XTC Conversion Configuration",
    ["XTC_FONT_FAMILY", "XTC_FONT_SIZE", "XTC_LINE_HEIGHT", "XTC_BIT_DEPTH",
     "XTC_ORIENTATION", "XTC_ENABLE_DITHERING", "XTC_ENABLE_NEGATIVE",
     "XTC_CONVERSION_TIMEOUT", "XTC_MAX_PARALLEL_CONVERSIONS"]),
   ("GUI Configuration",
    ["GUI_SHOW_RAW_OUTPUT", "GUI_THEME"])]

/-- `KNOWN_SCRAPER_PREFIXES` (lines 47-52). -/
def KNOWN_SCRAPER_PREFIXES : List (String × String) :=
  [("HCR", "HCR (Letters from an American)"), ("HN", "Hacker News"),
   ("HACKERNEWS", "Hacker News"), ("HACKADAY", "Hackaday")]

/-- `SCRAPER_SPECIAL_KEYS` (lines 55-59). -/
def SCRAPER_SPECIAL_KEYS : List (String × String) :=
  [("MIN_LETTER_WORD_COUNT", "HCR"), ("MAX_HCR_CANDIDATES", "HCR"),
   ("HACKERNEWS_SUBDIR", "HN")]

/-- Lookup in a string-to-string dictionary. -/
def slookup : List (String × String) → String → Option String
  | [], _ => none
  | (k', v) :: d, k => if k' = k then some v else slookup d k

/-- Uppercase letter test (ASCII). -/
def isAsciiUpperAlpha (c : Char) : Bool :=
  'A' ≤ c && c ≤ 'Z'

/-- Letter test (ASCII). -/
def isAsciiAlpha (c : Char) : Bool :=
  ('A' ≤ c && c ≤ 'Z') || ('a' ≤ c && c ≤ 'z')

/-- ASCII upper-casing. -/
def asciiUpper (c : Char) : Char :=
  if 'a' ≤ c && c ≤ 'z' then Char.ofNat (c.toNat - 32) else c

/-- Python `str.title()` (ASCII fragment): the first letter of each
letter run upper-cased, the rest lower-cased, other characters
unchanged.  The flag records whether the previous character was a
letter. -/
def pyTitleGo : List Char → Bool → List Char
  | [], _ => []
  | c :: cs, prevAlpha =>
    (if isAsciiAlpha c then (if prevAlpha then asciiLower c else asciiUpper c) else c)
      :: pyTitleGo cs (isAsciiAlpha c)

/-- `prefix.replace("_", " ").title()`: the display name derived from
a key fragment. -/
def underscoreTitle (p : String) : String :=
  ⟨pyTitleGo (replaceChar '_' ' ' p.data) false⟩

/-- Does one of `_ITEMS|_STORIES|_POSTS|_ARTICLES` start here
(alternation of the NUM_ pattern's second group, with its leading
underscore)? -/
def numWordAt (l : List Char) : Bool :=
  "_ITEMS".data.isPrefixOf l || "_STORIES".data.isPrefixOf l ||
    "_POSTS".data.isPrefixOf l || "_ARTICLES".data.isPrefixOf l

/-- Backtracking of the greedy `[A-Z_]+`: try the longest group first
(`k` counts the candidate group length). -/
def numGroupLoop (run tail : List Char) : Nat → Option (List Char)
  | 0 => none
  | k + 1 =>
    if numWordAt (run.drop (k + 1) ++ tail) then some (run.take (k + 1))
    else numGroupLoop run tail k

/-- `re.match(r"NUM_([A-Z_]+)_(ITEMS|STORIES|POSTS|ARTICLES)", key)`,
returning `group(1)`: the longest nonempty `[A-Z_]` run after `NUM_`
that is followed by an underscore and one of the four words. -/
def numPatternMatch (key : String) : Option String :=
  if "NUM_".data.isPrefixOf key.data then
    let after := key.data.drop 4
    let run := after.takeWhile (fun c => isAsciiUpperAlpha c || c = '_')
    let tail := after.dropWhile (fun c => isAsciiUpperAlpha c || c = '_')
    (numGroupLoop run tail run.length).map (fun g => (⟨g⟩ : String))
  else none

/-- The `for prefix, display_name in KNOWN_SCRAPER_PREFIXES.items()`
loop (lines 77-79). -/
def knownLoop (key : String) : List (String × String) → Option (String × String)
  | [] => none
  | (p, d) :: rest =>
    if (p ++ "_").data.isPrefixOf key.data
        || ("NUM_" ++ p ++ "_").data.isPrefixOf key.data then some (p, d)
    else knownLoop key rest

/-- The scraper_suffixes loop (lines 95-108): on a suffix match with
an excluded or empty remainder the loop moves on to the next
suffix. -/
def suffixLoop (key : String) : List String → Option (String × String)
  | [] => none
  | suf :: rest =>
    if suf.data.isSuffixOf key.data then
      let p : String := ⟨pySliceTo key.data (-(suf.data.length : Int))⟩
      if ¬(p = "") ∧ ¬(p = "UPLOAD" ∨ p = "XTC" ∨ p = "EPAPER" ∨ p = "CONNECTION") then
        some (p, ((slookup KNOWN_SCRAPER_PREFIXES p).getD (underscoreTitle p)))
      else suffixLoop key rest
    else suffixLoop key rest

/-- The suffix list of detect_scraper_prefix (lines 95-102). -/
def scraperSuffixes : List String :=
  ["_FETCH_TIMEOUT", "_API_BASE", "_BLOG_URL", "_ARCHIVE_URL",
   "_MAX_FILENAME_LENGTH", "_SUBDIR"]

/-- `detect_scraper_prefix` (bin/utils/ui_helpers.py lines 62-110);
the Python `(None, None)` return is `none`. -/
def detect_scraper_pfx (key : String) : Option (String × String) :=
  match slookup SCRAPER_SPECIAL_KEYS key with
  | some p => some (p, (slookup KNOWN_SCRAPER_PREFIXES p).getD p)
  | none =>
    match knownLoop key KNOWN_SCRAPER_PREFIXES with
    | some pd => some pd
    | none =>
      if "_SUBDIR".data.isSuffixOf key.data
          ∧ ¬(key = "HCR_SUBDIR" ∨ key = "HACKERNEWS_SUBDIR") then
        let p : String := ⟨pySliceTo key.data (-7)⟩
        some (p, underscoreTitle p)
      else
        match numPatternMatch key with
        | some g => some (g, underscoreTitle g)
        | none => suffixLoop key scraperSuffixes

/-- Lexicographic comparison of strings by code point, as Python's
`sorted` orders them. -/
def listLe : List Char → List Char → Bool
  | [], _ => true
  | _ :: _, [] => false
  | a :: as, b :: bs => if a = b then listLe as bs else decide (a < b)

/-- `a <= b` on strings. -/
def strLe (a b : String) : Bool :=
  listLe a.data b.data

/-- Insertion into a sorted list. -/
def insertSorted (x : String) : List String → List String
  | [] => [x]
  | y :: ys => if strLe x y then x :: y :: ys else y :: insertSorted x ys

/-- Python `sorted` on strings (insertion sort; the keys sorted here
are distinct, so stability is immaterial). -/
def sortStrings : List String → List String
  | [] => []
  | x :: xs => insertSorted x (sortStrings xs)

/-- Add a detected key to its prefix group, creating the group with
its display name on first insertion (get_scraper_categories lines
124-129). -/
def addScraperKey (groups : List (String × String × List String))
    (p d k : String) : List (String × String × List String) :=
  match groups with
  | [] => [(p, d, [k])]
  | (p', d', ks) :: rest =>
    if p' = p then (p', d', ks ++ [k]) :: rest
    else (p', d', ks) :: addScraperKey rest p d k

/-- The prefix groups accumulated over config.keys() in insertion
order (get_scraper_categories lines 122-129). -/
def scraperGroups (config : List (String × CValue)) :
    List (String × String × List String) :=
  config.foldl (fun groups kv =>
    match detect_scraper_pfx kv.1 with
    | some pd => addScraperKey groups pd.1 pd.2 kv.1
    | none => groups) []

/-- Lookup of a prefix group. -/
def tlookup : List (String × String × List String) → String →
    Option (String × List String)
  | [], _ => none
  | (p', d, ks) :: g, p => if p' = p then some (d, ks) else tlookup g p

/-- `get_scraper_categories` (bin/utils/ui_helpers.py lines 113-139):
groups in sorted prefix order, each named "<display name> Scraper"
with its keys sorted. -/
def get_scraper_categories (config : List (String × CValue)) :
    List (String × List String) :=
  let groups := scraperGroups config
  (sortStrings (groups.map (fun g => g.1))).filterMap (fun p =>
    (tlookup groups p).map (fun dk => (dk.1 ++ " Scraper", sortStrings dk.2)))

/-- The inner `for key in keys` loop of save_application_config
(lines 358-362 and 368-372), in continuation style: each key present
in the config is written as one `key=value` line and added to
written_keys; the continuation receives the updated written_keys. -/
def keysText (config : List (String × CValue)) :
    List String → List String → (List String → String) → String
  | [], written, rest => rest written
  | k :: ks, written, rest =>
    match dlookup config k with
    | some v => k ++ "=" ++ pyStr v ++ "\n" ++ keysText config ks (k :: written) rest
    | none => keysText config ks written rest

/-- The `for category, keys in ...` loops of save_application_config
(lines 356-363 and 366-373): a `# category` header, the key lines,
then a blank line. -/
def catsText (config : List (String × CValue)) :
    List (String × List String) → List String → (List String → String) → String
  | [], written, rest => rest written
  | (cat, ks) :: cats, written, rest =>
    "# " ++ cat ++ "\n" ++
      keysText config ks written (fun w => "\n" ++ catsText config cats w rest)

/-- The `# Other Settings` tail of save_application_config (lines
375-384): the keys not yet written, sorted, under one header — or
nothing when every key was categorized. -/
def otherText (config : List (String × CValue)) (w₂ : List String) : String :=
  if (sortStrings ((config.map Prod.fst).filter
      (fun k => !(w₂.contains k)))).isEmpty then ""
  else "# Other Settings" ++ "\n" ++
    keysText config
      (sortStrings ((config.map Prod.fst).filter (fun k => !(w₂.contains k))))
      w₂ (fun _ => "\n")

/-- The scraper-category loop (lines 366-373) followed by the
uncategorized tail. -/
def scraperThenOther (config : List (String × CValue)) (w₁ : List String) : String :=
  catsText config (get_scraper_categories config) w₁ (otherText config)

/-- `save_application_config` (bin/utils/ui_helpers.py lines 323-386):
the full text written to application.config — the three header
comment lines and a blank line, the core categories, the auto-detected
scraper categories, and the remaining keys sorted under
`# Other Settings`. -/
def save_application_config (config : List (String × CValue)) : String :=
  "# application.config" ++ "\n" ++
    "# Application configuration settings" ++ "\n" ++
    "# All numeric values are in their respective units (seconds, counts, etc.)"
    ++ "\n" ++ "\n" ++
    catsText config CORE_CONFIG_CATEGORIES [] (scraperThenOther config)

theorem char_ofNat_toNat (n : Nat) (h : n < 55296) : (Char.ofNat n).toNat = n := by
  simp [Char.ofNat, Nat.isValidChar, h, Char.ofNatAux, Char.toNat, UInt32.toNat,
    BitVec.toNat_ofNatLt]

theorem asciiLower_ne_nl (c : Char) (h : ¬(c = '\n')) : ¬(asciiLower c = '\n') := by
  unfold asciiLower
  by_cases hc : ('A' ≤ c && c ≤ 'Z') = true
  · rw [if_pos hc]
    intro he
    simp only [Bool.and_eq_true, decide_eq_true_eq, Char.le_def] at hc
    have h65 : 65 ≤ c.toNat := by exact_mod_cast hc.1
    have h90 : c.toNat ≤ 90 := by exact_mod_cast hc.2
    have := congrArg Char.toNat he
    rw [char_ofNat_toNat (c.toNat + 32) (by omega)] at this
    have h10 : ('\n').toNat = 10 := by decide
    omega
  · rw [if_neg hc]
    exact h

theorem asciiUpper_ne_nl (c : Char) (h : ¬(c = '\n')) : ¬(asciiUpper c = '\n') := by
  unfold asciiUpper
  by_cases hc : ('a' ≤ c && c ≤ 'z') = true
  · rw [if_pos hc]
    intro he
    simp only [Bool.and_eq_true, decide_eq_true_eq, Char.le_def] at hc
    have h97 : 97 ≤ c.toNat := by exact_mod_cast hc.1
    have h122 : c.toNat ≤ 122 := by exact_mod_cast hc.2
    have := congrArg Char.toNat he
    rw [char_ofNat_toNat (c.toNat - 32) (by omega)] at this
    have h10 : ('\n').toNat = 10 := by decide
    omega
  · rw [if_neg hc]
    exact h

theorem pyTitleGo_no_nl (l : List Char) :
    ∀ (flag : Bool), '\n' ∉ l → '\n' ∉ pyTitleGo l flag := by
  induction l with
  | nil => intro flag _ h; simp [pyTitleGo] at h
  | cons c cs ih =>
    intro flag hl hmem
    have hc : ¬(c = '\n') := fun h => hl (by rw [h]; exact List.mem_cons_self _ _)
    have hcs : '\n' ∉ cs := fun h => hl (List.mem_cons_of_mem c h)
    simp only [pyTitleGo, List.mem_cons] at hmem
    rcases hmem with hmem | hmem
    · by_cases ha : isAsciiAlpha c = true
      · rw [if_pos ha] at hmem
        by_cases hf : flag = true
        · rw [if_pos hf] at hmem
          exact asciiLower_ne_nl c hc hmem.symm
        · rw [if_neg hf] at hmem
          exact asciiUpper_ne_nl c hc hmem.symm
      · rw [if_neg ha] at hmem
        exact hc hmem.symm
    · exact ih (isAsciiAlpha c) hcs hmem

theorem underscoreTitle_no_nl (p : String) (h : '\n' ∉ p.data) :
    '\n' ∉ (underscoreTitle p).data := by
  unfold underscoreTitle
  apply pyTitleGo_no_nl
  intro hmem
  rcases mem_replaceChar '_' ' ' p.data '\n' hmem with hh | hh
  · exact absurd hh (by decide)
  · exact h hh.1

theorem pyStripL_eq_self_of_ends (l : List Char)
    (h1 : ∀ c, l.head? = some c → isPyWs c = false)
    (h2 : ∀ c, l.getLast? = some c → isPyWs c = false) : pyStripL l = l := by
  unfold pyStripL
  have hd : l.dropWhile isPyWs = l := by
    cases l with
    | nil => rfl
    | cons c cs =>
      rw [List.dropWhile_cons, if_neg (by rw [h1 c rfl]; simp)]
  rw [hd]
  have hd2 : l.reverse.dropWhile isPyWs = l.reverse := by
    cases hr : l.reverse with
    | nil => rfl
    | cons c cs =>
      have hc : l.getLast? = some c := by
        rw [← List.head?_reverse, hr]
        rfl
      rw [List.dropWhile_cons, if_neg (by rw [h2 c hc]; simp)]
  rw [hd2, List.reverse_reverse]

/-- A key a Python program could hold in application.config and read
back: nonempty, without `=`, without whitespace, not starting with
`#`. -/
def goodKey (k : String) : Prop :=
  k ≠ "" ∧ '=' ∉ k.data ∧ (∀ c ∈ k.data, isPyWs c = false)
    ∧ k.data.head? ≠ some '#'

/-- A value that survives the write/parse round trip: a nonnegative
int, a bool, or a string that no coercion branch captures, with no
surrounding whitespace and no newline.  Floats are excluded (their
repr is not modelled). -/
def goodVal : CValue → Prop
  | .vInt i => 0 ≤ i
  | .vBool _ => True
  | .vFloat _ => False
  | .vStr s => pyIsDigit s = false ∧ pyLower s ≠ "true" ∧ pyLower s ≠ "false"
      ∧ pyFloatAccepts s = false ∧ '\n' ∉ s.data
      ∧ s.data.head?.all (fun c => !isPyWs c) = true
      ∧ s.data.getLast?.all (fun c => !isPyWs c) = true

instance goodKey_decidable (k : String) : Decidable (goodKey k) :=
  inferInstanceAs (Decidable (k ≠ "" ∧ '=' ∉ k.data ∧ (∀ c ∈ k.data, isPyWs c = false)
    ∧ k.data.head? ≠ some '#'))

instance goodVal_decidable : (v : CValue) → Decidable (goodVal v)
  | .vInt i => inferInstanceAs (Decidable (0 ≤ i))
  | .vBool _ => inferInstanceAs (Decidable True)
  | .vFloat _ => inferInstanceAs (Decidable False)
  | .vStr s => inferInstanceAs (Decidable
      (pyIsDigit s = false ∧ pyLower s ≠ "true" ∧ pyLower s ≠ "false"
        ∧ pyFloatAccepts s = false ∧ '\n' ∉ s.data
        ∧ s.data.head?.all (fun c => !isPyWs c) = true
        ∧ s.data.getLast?.all (fun c => !isPyWs c) = true))

theorem intRepr_of_nonneg (i : Int) (h : 0 ≤ i) : intRepr i = natRepr i.toNat := by
  unfold intRepr
  rw [if_neg (by omega)]

theorem pyIsDigit_natRepr (n : Nat) : pyIsDigit (natRepr n) = true := by
  unfold pyIsDigit
  rw [List.all_eq_true.2 (natRepr_all_digits n)]
  cases hd : (natRepr n).data with
  | nil => exact absurd hd (natRepr_ne_nil n)
  | cons c cs => rfl

theorem coerceValue_natRepr (n : Nat) : coerceValue (natRepr n) = .vInt n := by
  unfold coerceValue
  rw [if_pos (pyIsDigit_natRepr n), digitsToNat_natRepr]

theorem pyStr_no_nl (v : CValue) (hv : goodVal v) : '\n' ∉ (pyStr v).data := by
  cases v with
  | vInt i =>
    show '\n' ∉ (intRepr i).data
    rw [intRepr_of_nonneg i hv]
    intro hmem
    exact absurd (natRepr_all_digits _ '\n' hmem) (by decide)
  | vBool b => cases b <;> decide
  | vFloat s => exact absurd hv (by simp [goodVal])
  | vStr s => exact hv.2.2.2.2.1

theorem pyStr_strip (v : CValue) (hv : goodVal v) :
    pyStripL (pyStr v).data = (pyStr v).data := by
  cases v with
  | vInt i =>
    show pyStripL (intRepr i).data = (intRepr i).data
    rw [intRepr_of_nonneg i hv]
    exact pyStripL_eq_self_of_all _
      (fun c hc => digit_not_ws c (natRepr_all_digits _ c hc))
  | vBool b => cases b <;> decide
  | vFloat s => exact absurd hv (by simp [goodVal])
  | vStr s =>
    show pyStripL s.data = s.data
    refine pyStripL_eq_self_of_ends _ ?_ ?_
    · intro c hc
      have h6 := hv.2.2.2.2.2.1
      rw [hc] at h6
      simpa using h6
    · intro c hc
      have h7 := hv.2.2.2.2.2.2
      rw [hc] at h7
      simpa using h7

theorem pyStr_last_not_ws (v : CValue) (hv : goodVal v) :
    ∀ c, (pyStr v).data.getLast? = some c → isPyWs c = false := by
  cases v with
  | vInt i =>
    intro c hc
    refine digit_not_ws c ?_
    show isAsciiDigit c = true
    have hmem := mem_of_getLast?_eq _ _ hc
    rw [show pyStr (CValue.vInt i) = natRepr i.toNat from intRepr_of_nonneg i hv] at hmem
    exact natRepr_all_digits _ c hmem
  | vBool b =>
    intro c hc
    cases b <;> (simp [pyStr] at hc; rw [← hc]; decide)
  | vFloat s => exact absurd hv (by simp [goodVal])
  | vStr s =>
    intro c hc
    have hc' : s.data.getLast? = some c := hc
    have h7 := hv.2.2.2.2.2.2
    rw [hc'] at h7
    simpa using h7

theorem coerce_pyStr (v : CValue) (hv : goodVal v) : coerceValue (pyStr v) = v := by
  cases v with
  | vInt i =>
    show coerceValue (intRepr i) = .vInt i
    rw [intRepr_of_nonneg i hv, coerceValue_natRepr]
    congr 1
    exact Int.toNat_of_nonneg hv
  | vBool b => cases b <;> decide
  | vFloat s => exact absurd hv (by simp [goodVal])
  | vStr s =>
    obtain ⟨h1, h2, h3, h4, _⟩ := hv
    show coerceValue s = CValue.vStr s
    unfold coerceValue
    rw [if_neg (by rw [h1]; simp), if_neg (by simp [h2, h3]), if_neg (by rw [h4]; simp)]

theorem head?_append_left (l₁ l₂ : List Char) (h : l₁ ≠ []) :
    (l₁ ++ l₂).head? = l₁.head? := by
  cases l₁ with
  | nil => exact absurd rfl h
  | cons c cs => rfl

theorem parseConfigLine_eq (raw : String) (k v : List Char)
    (hsplit : (pyStrip raw).data = k ++ '=' :: v) (hk : '=' ∉ k)
    (hhash : ¬((pyStrip raw).data.head? = some '#')) :
    parseConfigLine raw = some (pyStrip ⟨k⟩, coerceValue (pyStrip ⟨v⟩)) := by
  have hne : ¬((pyStrip raw).data.isEmpty = true) := by
    rw [hsplit]
    cases k <;> simp
  simp only [parseConfigLine]
  rw [if_neg hne, if_neg hhash, hsplit, splitAtChar_first '=' k v hk]

theorem parseConfigLine_data (k : String) (v : CValue)
    (hk : goodKey k) (hv : goodVal v) :
    parseConfigLine (k ++ "=" ++ pyStr v) = some (k, v) := by
  obtain ⟨hkne, hkeq, hkws, hkhash⟩ := hk
  have hkdne : k.data ≠ [] := by
    intro hnil
    exact hkne (congrArg (fun l : List Char => (⟨l⟩ : String)) hnil)
  have hdata : (k ++ "=" ++ pyStr v).data = k.data ++ '=' :: (pyStr v).data := by
    simp [String.data_append]
  have hstrip : pyStripL (k.data ++ '=' :: (pyStr v).data)
      = k.data ++ '=' :: (pyStr v).data := by
    apply pyStripL_eq_self_of_ends
    · intro c hc
      rw [head?_append_left _ _ hkdne] at hc
      exact hkws c (by
        cases hkd : k.data with
        | nil => exact absurd hkd hkdne
        | cons kc kcs =>
          rw [hkd] at hc
          simp only [List.head?_cons, Option.some.injEq] at hc
          rw [← hc]
          exact List.mem_cons_self kc kcs)
    · intro c hc
      rw [getLast?_append_right _ _ (by simp)] at hc
      cases hvd : (pyStr v).data with
      | nil =>
        rw [hvd] at hc
        simp only [List.getLast?_singleton, Option.some.injEq] at hc
        rw [← hc]
        decide
      | cons x xs =>
        rw [hvd, List.getLast?_cons_cons] at hc
        exact pyStr_last_not_ws v hv c (by rw [hvd]; exact hc)
  have hstripL : (pyStrip (k ++ "=" ++ pyStr v)).data
      = k.data ++ '=' :: (pyStr v).data := by
    show pyStripL (k ++ "=" ++ pyStr v).data = _
    rw [hdata, hstrip]
  have hhash2 : ¬((pyStrip (k ++ "=" ++ pyStr v)).data.head? = some '#') := by
    rw [hstripL, head?_append_left _ _ hkdne]
    exact hkhash
  rw [parseConfigLine_eq (k ++ "=" ++ pyStr v) k.data (pyStr v).data hstripL hkeq hhash2]
  have h1 : pyStrip (⟨k.data⟩ : String) = k := by
    show (⟨pyStripL k.data⟩ : String) = k
    rw [pyStripL_eq_self_of_all k.data hkws]
  have h2 : pyStrip (⟨(pyStr v).data⟩ : String) = pyStr v := by
    show (⟨pyStripL (pyStr v).data⟩ : String) = pyStr v
    rw [pyStr_strip v hv]
  rw [h1, h2, coerce_pyStr v hv]

/-- One file line fed through read_config_file's loop body. -/
def stepLine (d : List (String × CValue)) (line : String) :
    List (String × CValue) :=
  match parseConfigLine line with
  | some (k, v) => dictInsert d k v
  | none => d

/-- read_config_file's loop over a list of lines. -/
def processLines (d : List (String × CValue)) (lines : List String) :
    List (String × CValue) :=
  lines.foldl (fun config line =>
      match parseConfigLine line with
      | some (k, v) => dictInsert config k v
      | none => config) d

/-- Processing a text = splitting into lines and folding the loop. -/
def textProcessL (d : List (String × CValue)) (t : List Char) :
    List (String × CValue) :=
  processLines d ((splitLinesL t).map (fun l => (⟨l⟩ : String)))

theorem read_config_file_eq (text : String) :
    read_config_file text = textProcessL [] text.data := rfl

theorem processLines_cons (d : List (String × CValue)) (l : String)
    (ls : List String) :
    processLines d (l :: ls) = processLines (stepLine d l) ls := rfl

theorem splitLinesL_append_nl (a b : List Char) (ha : '\n' ∉ a) :
    splitLinesL (a ++ '\n' :: b) = a :: splitLinesL b := by
  induction a with
  | nil => simp [splitLinesL]
  | cons c cs ih =>
    have hc : ¬(c = '\n') := fun h => ha (by rw [h]; exact List.mem_cons_self _ _)
    have hcs : '\n' ∉ cs := fun h => ha (List.mem_cons_of_mem c h)
    rw [List.cons_append]
    simp only [splitLinesL]
    rw [if_neg hc, ih hcs]

theorem textProcessL_split (a b : List Char) (d : List (String × CValue))
    (ha : '\n' ∉ a) :
    textProcessL d (a ++ '\n' :: b) = textProcessL (stepLine d ⟨a⟩) b := by
  unfold textProcessL
  rw [splitLinesL_append_nl a b ha]
  rfl

theorem dropWhile_append_singleton (p : Char → Bool) (xs : List Char) (c : Char)
    (hc : p c = false) : ∃ zs, (xs ++ [c]).dropWhile p = zs ++ [c] := by
  induction xs with
  | nil =>
    refine ⟨[], ?_⟩
    rw [List.nil_append, List.dropWhile_cons, if_neg (by rw [hc]; simp)]
  | cons x xs ih =>
    rw [List.cons_append, List.dropWhile_cons]
    by_cases hx : p x = true
    · rw [if_pos hx]
      exact ih
    · exact ⟨x :: xs, by rw [if_neg hx, List.cons_append]⟩

theorem pyStripL_cons_head (c : Char) (l : List Char) (hc : isPyWs c = false) :
    (pyStripL (c :: l)).head? = some c := by
  unfold pyStripL
  rw [List.dropWhile_cons, if_neg (by rw [hc]; simp)]
  rw [List.reverse_cons]
  obtain ⟨zs, hzs⟩ := dropWhile_append_singleton isPyWs l.reverse c hc
  rw [hzs, List.reverse_append]
  simp

theorem parseConfigLine_hash_head (raw : String)
    (h : (pyStrip raw).data.head? = some '#') : parseConfigLine raw = none := by
  have hne : ¬((pyStrip raw).data.isEmpty = true) := by
    cases hd : (pyStrip raw).data with
    | nil => rw [hd] at h; exact Option.noConfusion h
    | cons x xs => simp
  simp only [parseConfigLine]
  rw [if_neg hne, if_pos h]

theorem stepLine_comment (d : List (String × CValue)) (cat : String) :
    stepLine d ("# " ++ cat) = d := by
  unfold stepLine
  rw [parseConfigLine_hash_head ("# " ++ cat) ?_]
  show (pyStripL ("# " ++ cat).data).head? = some '#'
  have hdata : ("# " ++ cat).data = '#' :: (' ' :: cat.data) := by
    simp [String.data_append]
  rw [hdata]
  exact pyStripL_cons_head '#' _ (by decide)

theorem stepLine_empty (d : List (String × CValue)) : stepLine d "" = d := rfl

theorem textProcessL_nl (d : List (String × CValue)) (t : List Char) :
    textProcessL d ('\n' :: t) = textProcessL d t := by
  unfold textProcessL
  simp only [splitLinesL, if_pos rfl]
  rfl

theorem textProcessL_nil (d : List (String × CValue)) :
    textProcessL d [] = d := rfl

/-- The dictionary accumulated by parsing the key lines keysText
writes: for each key found in the config, a dictInsert of its value. -/
def insertKeys (config : List (String × CValue)) :
    List String → List (String × CValue) → List (String × CValue)
  | [], d => d
  | k :: ks, d =>
    match dlookup config k with
    | some v => insertKeys config ks (dictInsert d k v)
    | none => insertKeys config ks d

/-- The written_keys set after keysText's loop. -/
def newWritten (config : List (String × CValue)) :
    List String → List String → List String
  | [], w => w
  | k :: ks, w =>
    match dlookup config k with
    | some _ => newWritten config ks (k :: w)
    | none => newWritten config ks w

/-- The dictionary accumulated by parsing catsText's output. -/
def insertCats (config : List (String × CValue)) :
    List (String × List String) → List (String × CValue) → List (String × CValue)
  | [], d => d
  | (_, ks) :: cats, d => insertCats config cats (insertKeys config ks d)

/-- The written_keys set after catsText's loops. -/
def newWrittenCats (config : List (String × CValue)) :
    List (String × List String) → List String → List String
  | [], w => w
  | (_, ks) :: cats, w => newWrittenCats config cats (newWritten config ks w)

theorem keysText_process (config : List (String × CValue))
    (hgood : ∀ k v, dlookup config k = some v → goodKey k ∧ goodVal v) :
    ∀ (ks written : List String) (rest : List String → String)
      (d : List (String × CValue)),
      textProcessL d (keysText config ks written rest).data
        = textProcessL (insertKeys config ks d)
            (rest (newWritten config ks written)).data := by
  intro ks
  induction ks with
  | nil => intro written rest d; rfl
  | cons k ks ih =>
    intro written rest d
    cases hdl : dlookup config k with
    | none =>
      simp only [keysText, hdl, insertKeys, newWritten]
      exact ih written rest d
    | some v =>
      obtain ⟨hk, hv⟩ := hgood k v hdl
      have hnonl : '\n' ∉ (k ++ "=" ++ pyStr v).data := by
        intro hmem
        rw [String.data_append, String.data_append, List.append_assoc] at hmem
        rcases List.mem_append.1 hmem with hh | hh
        · exact absurd (hk.2.2.1 '\n' hh) (by decide)
        · rcases List.mem_append.1 hh with hh2 | hh2
          · exact absurd hh2 (by decide)
          · exact pyStr_no_nl v hv hh2
      have hdata : (k ++ "=" ++ pyStr v ++ "\n"
            ++ keysText config ks (k :: written) rest).data
          = (k ++ "=" ++ pyStr v).data
            ++ '\n' :: (keysText config ks (k :: written) rest).data := by
        simp [String.data_append]
      simp only [keysText, hdl]
      rw [hdata, textProcessL_split _ _ _ hnonl]
      have hstep : stepLine d ⟨(k ++ "=" ++ pyStr v).data⟩ = dictInsert d k v := by
        show stepLine d (k ++ "=" ++ pyStr v) = dictInsert d k v
        unfold stepLine
        rw [parseConfigLine_data k v hk hv]
      rw [hstep]
      simp only [insertKeys, newWritten, hdl]
      exact ih (k :: written) rest (dictInsert d k v)

theorem catsText_process (config : List (String × CValue))
    (hgood : ∀ k v, dlookup config k = some v → goodKey k ∧ goodVal v) :
    ∀ (cats : List (String × List String)),
      (∀ c ∈ cats, '\n' ∉ c.1.data) →
      ∀ (written : List String) (rest : List String → String)
        (d : List (String × CValue)),
      textProcessL d (catsText config cats written rest).data
        = textProcessL (insertCats config cats d)
            (rest (newWrittenCats config cats written)).data := by
  intro cats
  induction cats with
  | nil => intro _ written rest d; rfl
  | cons c cats ih =>
    intro hnl written rest d
    rcases c with ⟨cat, ks⟩
    have hcatnl : '\n' ∉ ("# " ++ cat).data := by
      intro hmem
      rw [String.data_append] at hmem
      rcases List.mem_append.1 hmem with hh | hh
      · exact absurd hh (by decide)
      · exact hnl (cat, ks) (List.mem_cons_self _ _) hh
    have hdata : ("# " ++ cat ++ "\n" ++ keysText config ks written
            (fun w => "\n" ++ catsText config cats w rest)).data
        = ("# " ++ cat).data ++ '\n' :: (keysText config ks written
            (fun w => "\n" ++ catsText config cats w rest)).data := by
      simp [String.data_append]
    simp only [catsText]
    rw [hdata, textProcessL_split _ _ _ hcatnl]
    have hstep : stepLine d ⟨("# " ++ cat).data⟩ = d := by
      show stepLine d ("# " ++ cat) = d
      exact stepLine_comment d cat
    rw [hstep]
    rw [keysText_process config hgood ks written _ d]
    have hnldata : ("\n" ++ catsText config cats
          (newWritten config ks written) rest).data
        = '\n' :: (catsText config cats (newWritten config ks written) rest).data := by
      simp [String.data_append]
    rw [hnldata, textProcessL_nl]
    exact ih (fun c hc => hnl c (List.mem_cons_of_mem _ hc))
      (newWritten config ks written) rest (insertKeys config ks d)

/-- The written_keys set after both category loops. -/
def writtenAfterCats (config : List (String × CValue)) : List String :=
  newWrittenCats config (get_scraper_categories config)
    (newWrittenCats config CORE_CONFIG_CATEGORIES [])

/-- The sorted uncategorized keys written under `# Other Settings`. -/
def uncatKeys (config : List (String × CValue)) : List String :=
  sortStrings ((config.map Prod.fst).filter
    (fun k => !((writtenAfterCats config).contains k)))

/-- The dictionary parsed back from the core and scraper sections. -/
def coreThenScraper (config : List (String × CValue)) : List (String × CValue) :=
  insertCats config (get_scraper_categories config)
    (insertCats config CORE_CONFIG_CATEGORIES [])

theorem otherText_process (config : List (String × CValue))
    (hgood : ∀ k v, dlookup config k = some v → goodKey k ∧ goodVal v)
    (w₂ : List String) (d : List (String × CValue)) :
    textProcessL d (otherText config w₂).data
      = insertKeys config
          (sortStrings ((config.map Prod.fst).filter
            (fun k => !(w₂.contains k)))) d := by
  unfold otherText
  set u := sortStrings ((config.map Prod.fst).filter (fun k => !(w₂.contains k)))
    with hu_def
  by_cases hu : u.isEmpty = true
  · rw [if_pos hu, List.isEmpty_iff.1 hu]
    rfl
  · rw [if_neg hu]
    have hdata : ("# Other Settings" ++ "\n"
          ++ keysText config u w₂ (fun _ => "\n")).data
        = "# Other Settings".data ++ '\n'
          :: (keysText config u w₂ (fun _ => "\n")).data := by
      simp [String.data_append]
    rw [hdata, textProcessL_split "# Other Settings".data _ _ (by decide)]
    have hstep : stepLine d ⟨"# Other Settings".data⟩ = d := by
      show stepLine d "# Other Settings" = d
      unfold stepLine
      rw [show parseConfigLine "# Other Settings" = none from by decide]
    rw [hstep, keysText_process config hgood u w₂ _ d]
    show textProcessL (insertKeys config u d) ['\n'] = insertKeys config u d
    rw [textProcessL_nl]
    rfl

theorem read_save (config : List (String × CValue))
    (hgood : ∀ k v, dlookup config k = some v → goodKey k ∧ goodVal v)
    (hscrnl : ∀ c ∈ get_scraper_categories config, '\n' ∉ c.1.data) :
    read_config_file (save_application_config config)
      = insertKeys config (uncatKeys config) (coreThenScraper config) := by
  rw [read_config_file_eq]
  have hd : (save_application_config config).data
      = "# application.config".data ++ '\n'
        :: ("# Application configuration settings".data ++ '\n'
        :: ("# All numeric values are in their respective units (seconds, counts, etc.)".data
          ++ '\n' :: '\n'
          :: (catsText config CORE_CONFIG_CATEGORIES []
                (scraperThenOther config)).data)) := by
    simp [save_application_config, String.data_append]
  rw [hd]
  rw [textProcessL_split "# application.config".data _ _ (by decide)]
  rw [show stepLine [] ⟨"# application.config".data⟩ = [] from by decide]
  rw [textProcessL_split "# Application configuration settings".data _ _ (by decide)]
  rw [show stepLine [] ⟨"# Application configuration settings".data⟩ = []
    from by decide]
  rw [textProcessL_split
    "# All numeric values are in their respective units (seconds, counts, etc.)".data
    _ _ (by decide)]
  rw [show stepLine []
      ⟨"# All numeric values are in their respective units (seconds, counts, etc.)".data⟩
      = [] from by decide]
  rw [textProcessL_nl]
  rw [catsText_process config hgood CORE_CONFIG_CATEGORIES (by decide) []
    (scraperThenOther config) []]
  unfold scraperThenOther
  rw [catsText_process config hgood (get_scraper_categories config) hscrnl _
    (otherText config) _]
  rw [otherText_process config hgood _ _]
  rfl

theorem dlookup_mem (d : List (String × CValue)) (k : String) (v : CValue)
    (h : dlookup d k = some v) : (k, v) ∈ d := by
  induction d with
  | nil => exact Option.noConfusion h
  | cons p d ih =>
    rcases p with ⟨k₁, v₁⟩
    simp only [dlookup] at h
    by_cases hk : k₁ = k
    · rw [if_pos hk] at h
      simp only [Option.some.injEq] at h
      exact List.mem_cons.2 (Or.inl (by rw [← hk, ← h]))
    · rw [if_neg hk] at h
      exact List.mem_cons_of_mem _ (ih h)

theorem insertKeys_inv (config : List (String × CValue)) :
    ∀ (ks : List String) (d : List (String × CValue)) (w : List String),
      (∀ q, dlookup d q = none ∨ dlookup d q = dlookup config q) →
      (∀ k ∈ w, dlookup d k = dlookup config k) →
      (∀ q, dlookup (insertKeys config ks d) q = none
          ∨ dlookup (insertKeys config ks d) q = dlookup config q)
        ∧ (∀ k ∈ newWritten config ks w,
            dlookup (insertKeys config ks d) k = dlookup config k) := by
  intro ks
  induction ks with
  | nil => intro d w h1 h2; exact ⟨h1, h2⟩
  | cons k ks ih =>
    intro d w h1 h2
    cases hdl : dlookup config k with
    | none =>
      simp only [insertKeys, newWritten, hdl]
      exact ih d w h1 h2
    | some v =>
      simp only [insertKeys, newWritten, hdl]
      apply ih (dictInsert d k v) (k :: w)
      · intro q
        rw [dlookup_dictInsert]
        by_cases hq : q = k
        · rw [if_pos hq, hq, hdl]
          exact Or.inr rfl
        · rw [if_neg hq]
          exact h1 q
      · intro k' hk'
        rw [dlookup_dictInsert]
        by_cases hq : k' = k
        · rw [if_pos hq, hq, hdl]
        · rw [if_neg hq]
          rcases List.mem_cons.1 hk' with hh | hh
          · exact absurd hh hq
          · exact h2 k' hh

theorem insertCats_inv (config : List (String × CValue)) :
    ∀ (cats : List (String × List String)) (d : List (String × CValue))
      (w : List String),
      (∀ q, dlookup d q = none ∨ dlookup d q = dlookup config q) →
      (∀ k ∈ w, dlookup d k = dlookup config k) →
      (∀ q, dlookup (insertCats config cats d) q = none
          ∨ dlookup (insertCats config cats d) q = dlookup config q)
        ∧ (∀ k ∈ newWrittenCats config cats w,
            dlookup (insertCats config cats d) k = dlookup config k) := by
  intro cats
  induction cats with
  | nil => intro d w h1 h2; exact ⟨h1, h2⟩
  | cons c cats ih =>
    intro d w h1 h2
    rcases c with ⟨cat, ks⟩
    simp only [insertCats, newWrittenCats]
    have hstep := insertKeys_inv config ks d w h1 h2
    exact ih (insertKeys config ks d) (newWritten config ks w) hstep.1 hstep.2

theorem mem_newWritten_mono (config : List (String × CValue)) :
    ∀ (ks w : List String) (q : String), q ∈ w → q ∈ newWritten config ks w := by
  intro ks
  induction ks with
  | nil => intro w q h; exact h
  | cons k ks ih =>
    intro w q h
    cases hdl : dlookup config k with
    | none =>
      simp only [newWritten, hdl]
      exact ih w q h
    | some v =>
      simp only [newWritten, hdl]
      exact ih (k :: w) q (List.mem_cons_of_mem k h)

theorem mem_newWritten_of_mem (config : List (String × CValue)) :
    ∀ (ks w : List String) (q : String), q ∈ ks → dlookup config q ≠ none →
      q ∈ newWritten config ks w := by
  intro ks
  induction ks with
  | nil => intro w q h _; exact absurd h (List.not_mem_nil q)
  | cons k ks ih =>
    intro w q h hq
    rcases List.mem_cons.1 h with hh | hh
    · cases hdl : dlookup config k with
      | none => rw [← hh] at hdl; exact absurd hdl hq
      | some v =>
        simp only [newWritten, hdl]
        exact mem_newWritten_mono config ks (k :: w) q
          (List.mem_cons.2 (Or.inl hh))
    · cases hdl : dlookup config k with
      | none =>
        simp only [newWritten, hdl]
        exact ih w q hh hq
      | some v =>
        simp only [newWritten, hdl]
        exact ih (k :: w) q hh hq

theorem mem_insertSorted (x q : String) :
    ∀ l, q ∈ insertSorted x l ↔ q = x ∨ q ∈ l := by
  intro l
  induction l with
  | nil => simp [insertSorted]
  | cons y ys ih =>
    simp only [insertSorted]
    by_cases h : strLe x y = true
    · rw [if_pos h]
      simp [List.mem_cons]
    · rw [if_neg h]
      simp only [List.mem_cons, ih]
      tauto

theorem mem_sortStrings (q : String) : ∀ l, q ∈ sortStrings l ↔ q ∈ l := by
  intro l
  induction l with
  | nil => simp [sortStrings]
  | cons x xs ih =>
    simp only [sortStrings, mem_insertSorted, ih, List.mem_cons]

theorem mem_of_mem_takeWhileL (p : Char → Bool) (l : List Char) (c : Char)
    (h : c ∈ l.takeWhile p) : c ∈ l := by
  induction l with
  | nil => simp at h
  | cons a as ih =>
    rw [List.takeWhile_cons] at h
    by_cases hp : p a = true
    · rw [if_pos hp] at h
      rcases List.mem_cons.1 h with hh | hh
      · rw [hh]; exact List.mem_cons_self a as
      · exact List.mem_cons_of_mem a (ih hh)
    · rw [if_neg hp] at h
      exact absurd h (List.not_mem_nil c)

theorem mem_pySliceTo (l : List Char) (m : Int) (c : Char)
    (h : c ∈ pySliceTo l m) : c ∈ l := by
  unfold pySliceTo at h
  split_ifs at h
  · exact mem_of_mem_takeL l _ c h
  · exact mem_of_mem_takeL l _ c h

theorem slookup_special (key r : String)
    (h : slookup SCRAPER_SPECIAL_KEYS key = some r) : r = "HCR" ∨ r = "HN" := by
  simp only [SCRAPER_SPECIAL_KEYS, slookup] at h
  split_ifs at h
  · simp only [Option.some.injEq] at h
    exact Or.inl h.symm
  · simp only [Option.some.injEq] at h
    exact Or.inl h.symm
  · simp only [Option.some.injEq] at h
    exact Or.inr h.symm

theorem slookup_known_nl (p r : String)
    (h : slookup KNOWN_SCRAPER_PREFIXES p = some r) : '\n' ∉ r.data := by
  simp only [KNOWN_SCRAPER_PREFIXES, slookup] at h
  split_ifs at h <;>
    (simp only [Option.some.injEq] at h; rw [← h]; decide)

theorem knownLoop_mem (key : String) :
    ∀ (l : List (String × String)) (pd : String × String),
      knownLoop key l = some pd → pd ∈ l := by
  intro l
  induction l with
  | nil => intro pd h; exact Option.noConfusion h
  | cons e rest ih =>
    intro pd h
    rcases e with ⟨p, d⟩
    simp only [knownLoop] at h
    by_cases hc : ((p ++ "_").data.isPrefixOf key.data
        || ("NUM_" ++ p ++ "_").data.isPrefixOf key.data) = true
    · rw [if_pos hc] at h
      simp only [Option.some.injEq] at h
      rw [← h]
      exact List.mem_cons_self _ _
    · rw [if_neg hc] at h
      exact List.mem_cons_of_mem _ (ih pd h)

theorem numGroupLoop_take (run tail : List Char) :
    ∀ (n : Nat) (gl : List Char), numGroupLoop run tail n = some gl →
      ∃ j, gl = run.take j := by
  intro n
  induction n with
  | zero => intro gl h; exact Option.noConfusion h
  | succ k ih =>
    intro gl h
    simp only [numGroupLoop] at h
    by_cases hc : numWordAt (run.drop (k + 1) ++ tail) = true
    · rw [if_pos hc] at h
      simp only [Option.some.injEq] at h
      exact ⟨k + 1, h.symm⟩
    · rw [if_neg hc] at h
      exact ih gl h

theorem numPatternMatch_sub (key g : String)
    (h : numPatternMatch key = some g) : ∀ c ∈ g.data, c ∈ key.data := by
  intro c hc
  simp only [numPatternMatch] at h
  by_cases hp : ("NUM_".data.isPrefixOf key.data) = true
  · rw [if_pos hp, Option.map_eq_some'] at h
    obtain ⟨gl, hgl, hval⟩ := h
    obtain ⟨j, hj⟩ := numGroupLoop_take _ _ _ gl hgl
    rw [← hval] at hc
    have hc' : c ∈ gl := hc
    rw [hj] at hc'
    have hc2 := mem_of_mem_takeL _ _ _ hc'
    have hc3 := mem_of_mem_takeWhileL _ _ _ hc2
    exact List.mem_of_mem_drop hc3
  · rw [if_neg hp] at h
    exact absurd h (by simp)

theorem suffixLoop_nl (key : String) (hk : '\n' ∉ key.data) :
    ∀ (sufs : List String) (p dn : String),
      suffixLoop key sufs = some (p, dn) → '\n' ∉ dn.data := by
  intro sufs
  induction sufs with
  | nil => intro p dn h; exact Option.noConfusion h
  | cons suf rest ih =>
    intro p dn h
    simp only [suffixLoop] at h
    split_ifs at h
    · simp only [Option.some.injEq, Prod.mk.injEq] at h
      rw [← h.2]
      cases hsl : slookup KNOWN_SCRAPER_PREFIXES
          (⟨pySliceTo key.data (-(suf.data.length : Int))⟩ : String) with
      | some r =>
        rw [Option.getD_some]
        exact slookup_known_nl _ r hsl
      | none =>
        rw [Option.getD_none]
        refine underscoreTitle_no_nl _ ?_
        intro hmem
        exact hk (mem_pySliceTo key.data (-(suf.data.length : Int)) '\n' hmem)
    · exact ih p dn h
    · exact ih p dn h

theorem detect_no_nl (key p dn : String)
    (h : detect_scraper_pfx key = some (p, dn)) (hk : '\n' ∉ key.data) :
    '\n' ∉ dn.data := by
  unfold detect_scraper_pfx at h
  cases hsp : slookup SCRAPER_SPECIAL_KEYS key with
  | some p' =>
    rw [hsp] at h
    have h' : some (p', (slookup KNOWN_SCRAPER_PREFIXES p').getD p')
        = some (p, dn) := h
    simp only [Option.some.injEq, Prod.mk.injEq] at h'
    rcases slookup_special key p' hsp with hh | hh <;>
      (rw [← h'.2, hh]; decide)
  | none =>
    rw [hsp] at h
    cases hkl : knownLoop key KNOWN_SCRAPER_PREFIXES with
    | some pd =>
      rw [hkl] at h
      have h' : some pd = some (p, dn) := h
      simp only [Option.some.injEq] at h'
      have hmem := knownLoop_mem key KNOWN_SCRAPER_PREFIXES pd hkl
      rw [h'] at hmem
      simp only [KNOWN_SCRAPER_PREFIXES, List.mem_cons, List.not_mem_nil,
        or_false, Prod.mk.injEq] at hmem
      rcases hmem with ⟨_, hd⟩ | ⟨_, hd⟩ | ⟨_, hd⟩ | ⟨_, hd⟩ <;>
        (rw [hd]; decide)
    | none =>
      rw [hkl] at h
      by_cases hsub : ("_SUBDIR".data.isSuffixOf key.data
          ∧ ¬(key = "HCR_SUBDIR" ∨ key = "HACKERNEWS_SUBDIR"))
      · rw [if_pos hsub] at h
        have h' : some ((⟨pySliceTo key.data (-7)⟩ : String),
            underscoreTitle ⟨pySliceTo key.data (-7)⟩) = some (p, dn) := h
        simp only [Option.some.injEq, Prod.mk.injEq] at h'
        rw [← h'.2]
        refine underscoreTitle_no_nl _ ?_
        intro hmem
        exact hk (mem_pySliceTo key.data (-7) '\n' hmem)
      · rw [if_neg hsub] at h
        cases hnp : numPatternMatch key with
        | some g =>
          rw [hnp] at h
          have h' : some (g, underscoreTitle g) = some (p, dn) := h
          simp only [Option.some.injEq, Prod.mk.injEq] at h'
          rw [← h'.2]
          refine underscoreTitle_no_nl _ ?_
          intro hmem
          exact hk (numPatternMatch_sub key g hnp '\n' hmem)
        | none =>
          rw [hnp] at h
          exact suffixLoop_nl key hk scraperSuffixes p dn h

theorem addScraperKey_mem :
    ∀ (groups : List (String × String × List String)) (p d k : String)
      (g : String × String × List String), g ∈ addScraperKey groups p d k →
      g.2.1 = d ∨ ∃ g' ∈ groups, g.2.1 = g'.2.1 := by
  intro groups
  induction groups with
  | nil =>
    intro p d k g hg
    simp only [addScraperKey, List.mem_singleton] at hg
    rw [hg]
    exact Or.inl rfl
  | cons e rest ih =>
    intro p d k g hg
    rcases e with ⟨p', d', ks⟩
    simp only [addScraperKey] at hg
    by_cases hp : p' = p
    · rw [if_pos hp] at hg
      rcases List.mem_cons.1 hg with hh | hh
      · exact Or.inr ⟨(p', d', ks), List.mem_cons_self _ _, by rw [hh]⟩
      · exact Or.inr ⟨g, List.mem_cons_of_mem _ hh, rfl⟩
    · rw [if_neg hp] at hg
      rcases List.mem_cons.1 hg with hh | hh
      · exact Or.inr ⟨(p', d', ks), List.mem_cons_self _ _, by rw [hh]⟩
      · rcases ih p d k g hh with h1 | ⟨g', hg', he⟩
        · exact Or.inl h1
        · exact Or.inr ⟨g', List.mem_cons_of_mem _ hg', he⟩

theorem foldGroups_nl :
    ∀ (l : List (String × CValue)) (acc : List (String × String × List String)),
      (∀ kv ∈ l, '\n' ∉ kv.1.data) →
      (∀ g ∈ acc, '\n' ∉ g.2.1.data) →
      ∀ g ∈ l.foldl (fun groups kv =>
          match detect_scraper_pfx kv.1 with
          | some pd => addScraperKey groups pd.1 pd.2 kv.1
          | none => groups) acc, '\n' ∉ g.2.1.data := by
  intro l
  induction l with
  | nil => intro acc _ hacc g hg; exact hacc g hg
  | cons kv l ih =>
    intro acc hl hacc g hg
    rw [List.foldl_cons] at hg
    refine ih _ (fun kv' h => hl kv' (List.mem_cons_of_mem _ h)) ?_ g hg
    intro g' hg'
    cases hdet : detect_scraper_pfx kv.1 with
    | none =>
      rw [hdet] at hg'
      have hg'' : g' ∈ acc := hg'
      exact hacc g' hg''
    | some pd =>
      rw [hdet] at hg'
      have hg'' : g' ∈ addScraperKey acc pd.1 pd.2 kv.1 := hg'
      rcases addScraperKey_mem acc pd.1 pd.2 kv.1 g' hg'' with hh | ⟨g₀, hg₀, he⟩
      · rw [hh]
        exact detect_no_nl kv.1 pd.1 pd.2 (by rw [hdet])
          (hl kv (List.mem_cons_self _ _))
      · rw [he]
        exact hacc g₀ hg₀

theorem scraperGroups_nl (config : List (String × CValue))
    (hkeys : ∀ kv ∈ config, '\n' ∉ kv.1.data) :
    ∀ g ∈ scraperGroups config, '\n' ∉ g.2.1.data :=
  foldGroups_nl config [] hkeys (fun g hg => absurd hg (List.not_mem_nil g))

theorem tlookup_mem (g : List (String × String × List String)) (p : String)
    (dk : String × List String) (h : tlookup g p = some dk) :
    (p, dk.1, dk.2) ∈ g := by
  induction g with
  | nil => exact Option.noConfusion h
  | cons e rest ih =>
    rcases e with ⟨p', d, ks⟩
    simp only [tlookup] at h
    by_cases hp : p' = p
    · rw [if_pos hp] at h
      simp only [Option.some.injEq] at h
      rw [← h, ← hp]
      exact List.mem_cons_self _ _
    · rw [if_neg hp] at h
      exact List.mem_cons_of_mem _ (ih h)

theorem scraper_cats_nl (config : List (String × CValue))
    (hkeys : ∀ kv ∈ config, '\n' ∉ kv.1.data) :
    ∀ c ∈ get_scraper_categories config, '\n' ∉ c.1.data := by
  intro c hc
  simp only [get_scraper_categories] at hc
  rw [List.mem_filterMap] at hc
  obtain ⟨p, hp, hmap⟩ := hc
  rw [Option.map_eq_some'] at hmap
  obtain ⟨dk, hdk, hval⟩ := hmap
  have hmem := tlookup_mem (scraperGroups config) p dk hdk
  have hnl := scraperGroups_nl config hkeys (p, dk.1, dk.2) hmem
  rw [← hval]
  show '\n' ∉ (dk.1 ++ " Scraper").data
  intro hmm
  rw [String.data_append] at hmm
  rcases List.mem_append.1 hmm with hh | hh
  · exact hnl hh
  · exact absurd hh (by decide)

/-- C2 (amended): round-trip of the config format.  For every config
dictionary whose keys are nonempty, contain no `=` and no whitespace
anywhere, and do not start with `#`, and whose values are nonnegative
ints, bools, or strings that no coercion branch captures (not all
digits, not `true`/`false` case-insensitively, not float-parseable)
with no newline and no leading or trailing whitespace, writing it with
save_application_config and parsing the written text with
read_config_file yields a dictionary with exactly the same lookups. -/
theorem c2_config_roundtrip (config : List (String × CValue))
    (hgood : ∀ kv ∈ config, goodKey kv.1 ∧ goodVal kv.2) (q : String) :
    dlookup (read_config_file (save_application_config config)) q
      = dlookup config q := by
  have hgood' : ∀ k v, dlookup config k = some v → goodKey k ∧ goodVal v :=
    fun k v h => hgood (k, v) (dlookup_mem config k v h)
  have hkeys : ∀ kv ∈ config, '\n' ∉ kv.1.data := by
    intro kv hkv hmem
    exact absurd ((hgood kv hkv).1.2.2.1 '\n' hmem) (by decide)
  rw [read_save config hgood' (scraper_cats_nl config hkeys)]
  have hcore := insertCats_inv config CORE_CONFIG_CATEGORIES [] []
    (fun q' => Or.inl rfl) (fun k hk => absurd hk (List.not_mem_nil k))
  have hscr := insertCats_inv config (get_scraper_categories config)
    (insertCats config CORE_CONFIG_CATEGORIES [])
    (newWrittenCats config CORE_CONFIG_CATEGORIES []) hcore.1 hcore.2
  have hfin := insertKeys_inv config (uncatKeys config) (coreThenScraper config)
    (writtenAfterCats config) hscr.1 hscr.2
  cases hq : dlookup config q with
  | none =>
    rcases hfin.1 q with hh | hh
    · rw [hh]
    · rw [hh]
      exact hq
  | some v =>
    by_cases hw : q ∈ writtenAfterCats config
    · rw [hfin.2 q (mem_newWritten_mono config (uncatKeys config)
        (writtenAfterCats config) q hw)]
      exact hq
    · have hqk : q ∈ config.map Prod.fst := by
        by_contra hnk
        rw [(dlookup_eq_none_iff config q).2 hnk] at hq
        exact Option.noConfusion hq
      have hu : q ∈ uncatKeys config := by
        unfold uncatKeys
        rw [mem_sortStrings, List.mem_filter]
        exact ⟨hqk, by simp [hw]⟩
      rw [hfin.2 q (mem_newWritten_of_mem config (uncatKeys config)
        (writtenAfterCats config) q hu
        (by rw [hq]; exact fun hc => Option.noConfusion hc))]
      exact hq

/-- C2 counterexample to the claim as stated: the int value -1 is
written as `-1`, whose read-back is captured by the float branch, and
the string value `a\nb` has no leading or trailing whitespace and is
not coercible, yet splits across two lines and reads back as `a`. -/
theorem c2_counterexample :
    dlookup (read_config_file (save_application_config
        [("K", CValue.vInt (-1))])) "K" = some (CValue.vFloat "-1")
      ∧ dlookup (read_config_file (save_application_config
        [("K", CValue.vStr "a\nb")])) "K" = some (CValue.vStr "a") := by
  constructor <;> decide

/-- Witness: the round-trip theorem applied to a concrete two-key
config containing a string value and a scraper-detected int key. -/
theorem c2_witness :
    (∀ kv ∈ [("EPAPER_NETWORK", CValue.vStr "Home"),
        ("NUM_HN_STORIES", CValue.vInt 20)], goodKey kv.1 ∧ goodVal kv.2)
      ∧ dlookup (read_config_file (save_application_config
          [("EPAPER_NETWORK", CValue.vStr "Home"),
           ("NUM_HN_STORIES", CValue.vInt 20)])) "NUM_HN_STORIES"
        = dlookup [("EPAPER_NETWORK", CValue.vStr "Home"),
            ("NUM_HN_STORIES", CValue.vInt 20)] "NUM_HN_STORIES" :=
  ⟨by decide, c2_config_roundtrip _ (by decide) "NUM_HN_STORIES"⟩
